import Mathlib

/-!
Verification of the osc-dm-proxy-srv routing and resolution engine.

A shallow embedding, in Lean 4, of the routing, dynamic-resolution,
forwarding, registry and statistics code of the gateway
(`src/server.py`, `src/registrar.py`, `src/etcd.py`, `src/stats.py`),
together with proofs about the embedded definitions.

Strings are modelled as `List Char` (written `Chars` below), matching
Python's treatment of `str` as a sequence of characters.
-/

deriving instance DecidableEq for Except

/-- Python strings are modelled as lists of characters. -/
abbrev Chars := List Char

/-- Convenience conversion from a Lean string literal to the model type. -/
def chars (s : String) : Chars := s.data

/-! ## A model of `re.match` for the patterns used by the gateway

`server.py` tests every route's `source` pattern with
`re.match(pattern, "/" + path)`, i.e. an *anchored prefix* match: the
pattern has to match at the start of the subject, and trailing subject
characters are allowed.  The route patterns of this gateway use only
literal characters and the regex constructs `.` (any character) and
`*` (zero-or-more of the previous atom); the engine below models exactly
those constructs, treating every other character as a literal. -/

/-- A single regex atom: `.` or a literal character. -/
inductive RAtom where
  | dot : RAtom
  | lit (c : Char) : RAtom
deriving DecidableEq

/-- Compile a pattern string into a list of atoms, each optionally
starred (`true` = followed by `*`). -/
def parseRe : Chars → List (RAtom × Bool)
  | [] => []
  | '.' :: '*' :: rest => (.dot, true) :: parseRe rest
  | '.' :: rest => (.dot, false) :: parseRe rest
  | c :: '*' :: rest => (.lit c, true) :: parseRe rest
  | c :: rest => (.lit c, false) :: parseRe rest

/-- Does an atom match one character? -/
def atomMatch : RAtom → Char → Bool
  | .dot, _ => true
  | .lit a, c => a = c

/-- All suffixes of `s` reachable by consuming, from the front, zero or
more characters that match atom `a`.  (Never empty: consuming zero
characters is always allowed.) -/
def starTails (a : RAtom) : Chars → List Chars
  | [] => [[]]
  | c :: rest => (c :: rest) :: (if atomMatch a c then starTails a rest else [])

/-- Match a compiled pattern against a subject, anchored at the start and
allowing trailing subject characters (the semantics of `re.match` used as
a boolean test). -/
def matchToks : List (RAtom × Bool) → Chars → Bool
  | [], _ => true
  | (a, true) :: ps, s => (starTails a s).any (fun t => matchToks ps t)
  | (a, false) :: ps, s =>
    match s with
    | [] => false
    | c :: rest => atomMatch a c && matchToks ps rest

/-- Model of the boolean use of `re.match(pattern, subject)` in
`server.py`. -/
def reMatch (pattern subject : Chars) : Bool :=
  matchToks (parseRe pattern) subject

/-! ## The route table and the matching scan (`server.py`, `handle_request`)

A route is a `{source, target}` pair from the configured table.  The
scan over the table (lines 184-196 of `server.py`) accumulates the
specific matches in order and keeps the *last* route whose source is the
literal catch-all pattern `"/.*"` (each assignment of
`catchall_route = route` overwrites the previous one).

`handle_request` does not fix the regex engine's semantics beyond using
it as a boolean test, so the scan and the decision are parametrised by
the match function `m`; `reMatch` above instantiates it. -/

structure Route where
  source : Chars
  target : Chars
deriving DecidableEq

/-- The scan loop of `handle_request` (`server.py` lines 184-196):
returns `(catchall_route, matching_routes)`. -/
def scanRoutes (m : Chars → Chars → Bool) (path : Chars) (routes : List Route) :
    Option Route × List Route :=
  routes.foldl
    (fun acc route =>
      if m route.source ('/' :: path) then
        if route.source = chars "/.*" then (some route, acc.2)
        else (acc.1, acc.2 ++ [route])
      else acc)
    (none, [])

/-- The four possible outcomes of route matching. -/
inductive Decision where
  | useRoute (r : Route)
  | useCatchall (r : Route)
  | ambiguous (rs : List Route)
  | noRoute
deriving DecidableEq

/-- The decision taken by `handle_request` (`server.py` lines 198-248):
exactly one specific match wins; with no specific match the catch-all is
used if present; several specific matches are an ambiguity error (the
code logs every contending route, modelled by the list carried by
`Decision.ambiguous`); otherwise matching fails. -/
def routeDecision (m : Chars → Chars → Bool) (routes : List Route) (path : Chars) :
    Decision :=
  match scanRoutes m path routes with
  | (_, [r]) => .useRoute r
  | (some c, []) => .useCatchall c
  | (none, []) => .noRoute
  | (_, rs) => .ambiguous rs

/-- The specific (non-catch-all) routes whose pattern matches `"/" + path`. -/
def specificMatches (m : Chars → Chars → Bool) (path : Chars) (routes : List Route) :
    List Route :=
  routes.filter (fun r => m r.source ('/' :: path) && !decide (r.source = chars "/.*"))

/-- The catch-all routes (source pattern literally `"/.*"`) whose pattern
matches `"/" + path`. -/
def catchAllMatches (m : Chars → Chars → Bool) (path : Chars) (routes : List Route) :
    List Route :=
  routes.filter (fun r => m r.source ('/' :: path) && decide (r.source = chars "/.*"))

/-- The decision table of the specification (§4.1), stated over the
partition of the matching routes: one specific match wins; zero specific
matches fall back to the catch-all (the last one registered) when one
exists and fail otherwise; two or more specific matches are ambiguous,
with all contenders reported. -/
def decisionTable (specific : List Route) (catchalls : List Route) : Decision :=
  match specific, catchalls.getLast? with
  | [r], _ => .useRoute r
  | [], some c => .useCatchall c
  | [], none => .noRoute
  | rs, _ => .ambiguous rs

/-! ## Exceptions and the top-level status mapping (`route_path`)

`server.py` raises `BgsNotFoundException` for dynamic-resolution
failures, plain `BgsException` for the two route-matching failures
(ambiguity and no-matching-route), and `fastapi.HTTPException` from the
forwarder.  Modelled from the spec: `bgsexception.py` is not part of
`src/`; per the spec's error taxonomy (§7: `NotFound` is one kind,
`Ambiguous` is a distinct 500-class kind) it is modelled as a base class
`BgsException` with subclass `BgsNotFoundException`, so a raised
`BgsException` is *not* caught by an `except BgsNotFoundException`
handler.  `TypeError` models the Python error raised at the call
`registrar.retrieve_product_address(uuid)` (`server.py` line 277), which
passes one argument to a method whose signature
(`registrar.py` line 35) requires two (`request`, `uuid`). -/

inductive Exc where
  /-- `BgsNotFoundException` (invalid uuid / dynamic path not found). -/
  | bgsNotFound
  /-- `BgsException` "Multiple matching routes found", with every
  contending route (each is logged by the code). -/
  | bgsMultipleRoutes (rs : List Route)
  /-- `BgsException` "No matching route found". -/
  | bgsNoMatchingRoute
  /-- `fastapi.HTTPException` with an explicit status code. -/
  | httpExc (status : Nat)
  /-- `TypeError`: wrong arity at a call site. -/
  | typeError
deriving DecidableEq

/-- The sentinel target that triggers dynamic resolution. -/
def resolverSentinel : Chars := chars "dataproduct_resolver"

/-- Model of `handle_request` (`server.py` lines 169-248), parametrised by the
pattern matcher `m`, the dynamic resolver (`dynamic_resolver`, line 209)
and the forwarder (`_forward_request`, lines 220/231).  The `try` around
the resolver call (lines 208-213) catches only `BgsNotFoundException`
and re-raises it (with a longer message); every other exception
propagates. -/
def handle_request {α : Type} (m : Chars → Chars → Bool)
    (resolve : Chars → Except Exc Chars)
    (forward : Chars → Except Exc α)
    (routes : List Route) (path : Chars) : Except Exc α :=
  match routeDecision m routes path with
  | .useRoute r =>
    if r.target = resolverSentinel then
      match resolve path with
      | .error .bgsNotFound => .error .bgsNotFound
      | .error e => .error e
      | .ok addr => forward (addr ++ '/' :: path)
    else forward (r.target ++ '/' :: path)
  | .useCatchall c => forward (c.target ++ '/' :: path)
  | .ambiguous rs => .error (.bgsMultipleRoutes rs)
  | .noRoute => .error .bgsNoMatchingRoute

/-- The status code produced by the exception handlers of `route_path`
(`server.py` lines 147-166): `except BgsNotFoundException` → 404,
`except HTTPException` → re-raised unchanged, `except Exception` → 500. -/
def excStatus : Exc → Nat
  | .bgsNotFound => 404
  | .httpExc s => s
  | .bgsMultipleRoutes _ => 500
  | .bgsNoMatchingRoute => 500
  | .typeError => 500

/-- Model of `route_path` (`server.py` lines 145-166): the caller sees either the
forwarded response or the HTTP status an exception was mapped to. -/
def route_path {α : Type} (m : Chars → Chars → Bool)
    (resolve : Chars → Except Exc Chars)
    (forward : Chars → Except Exc α)
    (routes : List Route) (path : Chars) : Except Nat α :=
  match handle_request m resolve forward routes path with
  | .ok a => .ok a
  | .error e => .error (excStatus e)

/-! ## Dynamic resolution (`_service_discovery`, `server.py` lines 259-280)

The path is scanned for the first substring of the canonical UUID shape
(8-4-4-4-12 hexadecimal groups, case-insensitive,
`re.search(r"[0-9a-fA-F]{8}-...", path)`); if none is found a
`BgsNotFoundException` is raised before any directory call; otherwise
the first (leftmost) occurrence is passed to the directory lookup. -/

/-- The character class `[0-9a-fA-F]` of the UUID regex. -/
def isHexChar (c : Char) : Bool :=
  ('0' ≤ c && c ≤ '9') || ('a' ≤ c && c ≤ 'f') || ('A' ≤ c && c ≤ 'F')

/-- Consume exactly `n` hex characters, returning them and the rest. -/
def takeHex : Nat → Chars → Option (Chars × Chars)
  | 0, s => some ([], s)
  | _ + 1, [] => none
  | n + 1, c :: s =>
    if isHexChar c then (takeHex n s).map (fun p => (c :: p.1, p.2)) else none

/-- Consume a literal dash. -/
def takeDash : Chars → Option Chars
  | '-' :: s => some s
  | _ => none

/-- Try to match the canonical UUID shape at the start of `s`, returning
the matched 36 characters. -/
def matchUuidAt (s : Chars) : Option Chars := do
  let (g1, s) ← takeHex 8 s
  let s ← takeDash s
  let (g2, s) ← takeHex 4 s
  let s ← takeDash s
  let (g3, s) ← takeHex 4 s
  let s ← takeDash s
  let (g4, s) ← takeHex 4 s
  let s ← takeDash s
  let (g5, _) ← takeHex 12 s
  pure (g1 ++ '-' :: g2 ++ '-' :: g3 ++ '-' :: g4 ++ '-' :: g5)

/-- Model of `re.search` for the UUID regex: try each start position from the
left, returning the leftmost match. -/
def uuidSearch : Chars → Option Chars
  | [] => none
  | c :: rest =>
    match matchUuidAt (c :: rest) with
    | some u => some u
    | none => uuidSearch rest

/-- Model of `_service_discovery` (`server.py` lines 259-280), parametrised by
the directory lookup (the call `registrar.retrieve_product_address(uuid)`
at line 277).  Returns the result together with the list of identifiers
passed to the directory lookup, so that "no directory call is made" is
expressible. -/
def service_discovery (lookup : Chars → Except Exc Chars) (path : Chars) :
    Except Exc Chars × List Chars :=
  match uuidSearch path with
  | none => (.error .bgsNotFound, [])
  | some uuid => (lookup uuid, [uuid])

/-- Model of `dynamic_resolver` (`server.py` lines 251-256) just delegates to
`_service_discovery`. -/
def dynamic_resolver (lookup : Chars → Except Exc Chars) (path : Chars) :
    Except Exc Chars :=
  (service_discovery lookup path).1

/-- The call `registrar.retrieve_product_address(uuid)` at
`server.py` line 277 passes a single argument, but
`Registrar.retrieve_product_address(self, request, uuid)`
(`registrar.py` lines 35-51) requires two; in Python the call raises
`TypeError` before any HTTP request to the directory is issued. -/
def retrieve_product_address_call (_uuid : Chars) : Except Exc Chars :=
  .error .typeError

/-! ## Forwarding and the error taxonomy (`_forward_request`, lines 283-327)

`_forward_request` re-issues the request via `httpx` and translates each
`httpx` exception class into a `fastapi.HTTPException` with a fixed
status.  The `except` clauses are tried in source order, and a clause
fires when the raised exception is an instance of its class, so the
`httpx` exception hierarchy is part of the semantics.  The modelled
fragment of that hierarchy (from the `httpx` library):

  ConnectTimeout < TimeoutException < TransportError < RequestError < HTTPError < Exception
  ReadTimeout    < TimeoutException
  ConnectError   < NetworkError     < TransportError
  ReadError      < NetworkError
  ProtocolError  < TransportError
  HTTPStatusError < HTTPError
  InvalidURL     < Exception (not a RequestError)
-/

/-- The exception classes named by the `except` clauses of
`_forward_request`, in source order. -/
inductive HttpxCls where
  | connectTimeoutC | connectErrorC | networkErrorC | readTimeoutC
  | httpStatusErrorC | requestErrorC | exceptionC
deriving DecidableEq

/-- Concrete failures a forwarding attempt can raise, one per failure
class of the specification's taxonomy: backend connect timeout, connect
refused/unreachable (`ConnectError`), another network-level I/O error
(`ReadError`), read/response timeout, a backend error status that the
client library raises as `HTTPStatusError`, another request/transport
error (`ProtocolError`), and an error outside the `httpx` request
hierarchy (`InvalidURL`). -/
inductive HttpxFailure where
  | connectTimeout
  | connectError
  | readError
  | readTimeout
  | httpStatusError (status : Nat)
  | protocolError
  | invalidURL
deriving DecidableEq

/-- Python `isinstance`, restricted to the modelled classes. -/
def isInstance : HttpxFailure → HttpxCls → Bool
  | .connectTimeout, .connectTimeoutC => true
  | .connectTimeout, .requestErrorC => true
  | .connectTimeout, .exceptionC => true
  | .connectTimeout, _ => false
  | .connectError, .connectErrorC => true
  | .connectError, .networkErrorC => true
  | .connectError, .requestErrorC => true
  | .connectError, .exceptionC => true
  | .connectError, _ => false
  | .readError, .networkErrorC => true
  | .readError, .requestErrorC => true
  | .readError, .exceptionC => true
  | .readError, _ => false
  | .readTimeout, .readTimeoutC => true
  | .readTimeout, .requestErrorC => true
  | .readTimeout, .exceptionC => true
  | .readTimeout, _ => false
  | .httpStatusError _, .httpStatusErrorC => true
  | .httpStatusError _, .exceptionC => true
  | .httpStatusError _, _ => false
  | .protocolError, .requestErrorC => true
  | .protocolError, .exceptionC => true
  | .protocolError, _ => false
  | .invalidURL, .exceptionC => true
  | .invalidURL, _ => false

/-- The value `e.response.status_code` for an `HTTPStatusError` (only ever read in
that clause). -/
def failureStatus : HttpxFailure → Nat
  | .httpStatusError s => s
  | _ => 0

/-- Model of `_forward_request` (`server.py` lines 283-327): on success the
backend's `(content, status_code, headers)` triple is returned; each
`except` clause, tried in source order, maps its class to a fixed
`HTTPException` status (the message annotates the url and underlying
error; messages are not modelled). -/
def forward_request {α : Type} (attempt : Except HttpxFailure α) : Except Exc α :=
  match attempt with
  | .ok a => .ok a
  | .error e =>
    if isInstance e .connectTimeoutC then .error (.httpExc 504)
    else if isInstance e .connectErrorC then .error (.httpExc 503)
    else if isInstance e .networkErrorC then .error (.httpExc 503)
    else if isInstance e .readTimeoutC then .error (.httpExc 504)
    else if isInstance e .httpStatusErrorC then .error (.httpExc (failureStatus e))
    else if isInstance e .requestErrorC then .error (.httpExc 502)
    else .error (.httpExc 500)

/-- The route table and request path of the specification's
dynamic-resolution scenario (§8). -/
def scenarioRoutes : List Route :=
  [⟨chars "/api/products/.*", chars "dataproduct_resolver"⟩]

/-- The scenario request path. -/
def scenarioPath : Chars :=
  chars "api/products/uuid/3fa85f64-5717-4562-b3fc-2c963f66afa6/data"

/-! ## The statistics collector (`stats.py`)

`Stats.process` splits `request.url.path` on `'/'`, increments the
counter for `"/"` and for every incremental path built by re-joining the
segments after the first, and appends a request-log entry;
`Stats.error` increments the `"error"` counter and appends an error-log
entry.  The counters (a `defaultdict(int)`) are modelled as a total
function `Chars → Nat`. -/

/-- Python `path.split('/')` (splitting on a single character). -/
def splitSlash : Chars → List Chars
  | [] => [[]]
  | c :: rest =>
    let r := splitSlash rest
    if c = '/' then [] :: r else (c :: r.headD []) :: r.tail

/-- Re-join segments with `'/'` (inverse of `splitSlash`). -/
def joinSlash : List Chars → Chars
  | [] => []
  | [s] => s
  | s :: s2 :: rest => s ++ '/' :: joinSlash (s2 :: rest)

/-- The incremental paths built by the loop of `Stats.process`
(`stats.py` lines 45-51): starting from accumulator `acc`, each segment
appends `'/' + segment` and records the accumulator. -/
def incsFrom (acc : Chars) : List Chars → List Chars
  | [] => []
  | s :: rest => (acc ++ '/' :: s) :: incsFrom (acc ++ '/' :: s) rest

/-- All counter keys incremented by `Stats.process` for a given path:
`"/"` first (line 44), then every incremental path. -/
def bumpKeys (path : Chars) : List Chars :=
  ['/'] :: incsFrom [] (splitSlash path).tail

/-- Increment one counter of a `defaultdict(int)`. -/
def bumpFn (k : Chars) (f : Chars → Nat) : Chars → Nat :=
  fun q => if q = k then f q + 1 else f q

/-- The `error` counter key (`stats.py` line 27). -/
def errKey : Chars := chars "error"

/-- The state of a `Stats` object: counters, request log, error log. -/
structure StatsState where
  statistics : Chars → Nat
  reqs : List Chars
  errs : List (Chars × Chars)

/-- A fresh `Stats()`. -/
def statsInit : StatsState :=
  { statistics := fun _ => 0, reqs := [], errs := [] }

/-- Model of `Stats.process` (`stats.py` lines 36-56). -/
def statsProcess (path : Chars) (st : StatsState) : StatsState :=
  { statistics := (bumpKeys path).foldl (fun f k => bumpFn k f) st.statistics,
    reqs := st.reqs ++ [path],
    errs := st.errs }

/-- Model of `Stats.error` (`stats.py` lines 26-32). -/
def statsError (path msg : Chars) (st : StatsState) : StatsState :=
  { statistics := bumpFn errKey st.statistics,
    reqs := st.reqs,
    errs := st.errs ++ [(path, msg)] }

/-- One call made to the collector. -/
inductive StatsOp where
  | record (path : Chars)
  | recordError (path msg : Chars)
deriving DecidableEq

/-- Apply one call. -/
def applyOp (op : StatsOp) (st : StatsState) : StatsState :=
  match op with
  | .record path => statsProcess path st
  | .recordError path msg => statsError path msg st

/-- Run a sequence of calls from a given state. -/
def runFrom (st : StatsState) (ops : List StatsOp) : StatsState :=
  ops.foldl (fun s op => applyOp op s) st

/-- Run a sequence of calls from a fresh collector. -/
def runOps (ops : List StatsOp) : StatsState :=
  runFrom statsInit ops

/-- Key `p` is `q` itself, the root `"/"`, or a proper segment-prefix of `q`
(`q` extends `p` at a `'/'` boundary). -/
def segPrec (p q : Chars) : Bool :=
  p == q || p == ['/'] || (!(p == []) && (p ++ ['/']).isPrefixOf q)

/-- The segment-prefix domination invariant: on every path-shaped key,
a key dominates all of its segment-extensions. -/
def statsDom (f : Chars → Nat) : Prop :=
  ∀ p q : Chars, p ≠ [] → q.head? = some '/' → segPrec p q = true → f q ≤ f p

/-! ## Registry wildcard retrieval (`etcd.py`, `retrieve_wildcard`)

`retrieve_wildcard` fetches every key under the root prefix
(`client.get_prefix("/")` returns exactly the stored keys that start
with `"/"`), splits the pattern and each key on `'/'`, requires equal
segment counts and shell-glob matches each segment pair with
`fnmatch.fnmatch` (on POSIX `normcase` is the identity, so matching is
case-sensitive); collected values are returned, or `None` when nothing
matched.  The store is modelled as a list of key/value pairs in
iteration order; values are generic (the code JSON-decodes each stored
byte string — the decode/encode round trip is treated with the
`upsert`/`retrieve` claim). -/

/-- One element of a compiled shell-glob pattern. -/
inductive GlobAtom where
  | lit (c : Char)
  | any
  | star
  | cls (neg : Bool) (content : Chars)
deriving DecidableEq

/-- Scan for the closing `']'` of a bracket expression, returning the
content before it and the remainder after it. -/
def scanClose : Chars → Option (Chars × Chars)
  | [] => none
  | ']' :: r => some ([], r)
  | c :: r => (scanClose r).map (fun pr => (c :: pr.1, pr.2))

/-- Interpret the characters after `'['`: an optional leading `'!'`
negates; a `']'` directly after that is literal content; an unmatched
bracket yields `none` (the `'['` is then a literal). -/
def bracketSplit (p : Chars) : Option (Bool × Chars × Chars) :=
  match p with
  | '!' :: p1 =>
    match p1 with
    | ']' :: r => (scanClose r).map (fun pr => (true, ']' :: pr.1, pr.2))
    | _ => (scanClose p1).map (fun pr => (true, pr.1, pr.2))
  | _ =>
    match p with
    | ']' :: r => (scanClose r).map (fun pr => (false, ']' :: pr.1, pr.2))
    | _ => (scanClose p).map (fun pr => (false, pr.1, pr.2))

/-- Membership in a bracket expression: single characters and `a-b`
ranges; a `'-'` first or last is a literal. -/
def inBracket : Chars → Char → Bool
  | [], _ => false
  | a :: '-' :: b :: rest, c => (decide (a ≤ c) && decide (c ≤ b)) || inBracket rest c
  | a :: rest, c => (a == c) || inBracket rest c

/-- Compile a glob pattern into atoms; the fuel is at least the pattern
length, and every step consumes at least one character. -/
def parseGlobF : Nat → Chars → List GlobAtom
  | 0, _ => []
  | _ + 1, [] => []
  | fuel + 1, '*' :: rest => .star :: parseGlobF fuel rest
  | fuel + 1, '?' :: rest => .any :: parseGlobF fuel rest
  | fuel + 1, '[' :: rest =>
    match bracketSplit rest with
    | some (neg, content, rem) => .cls neg content :: parseGlobF fuel rem
    | none => .lit '[' :: parseGlobF fuel rest
  | fuel + 1, c :: rest => .lit c :: parseGlobF fuel rest

/-- Match compiled glob atoms against a whole name (glob patterns match
the full string, unlike `re.match`). -/
def matchAtoms : List GlobAtom → Chars → Bool
  | [], [] => true
  | [], _ :: _ => false
  | .star :: ps, s => s.tails.any (fun t => matchAtoms ps t)
  | .any :: ps, s =>
    match s with
    | [] => false
    | _ :: rest => matchAtoms ps rest
  | .cls neg content :: ps, s =>
    match s with
    | [] => false
    | c :: rest => (inBracket content c != neg) && matchAtoms ps rest
  | .lit a :: ps, s =>
    match s with
    | [] => false
    | c :: rest => (a == c) && matchAtoms ps rest

/-- Model of `fnmatch.fnmatch(name, pattern)` on POSIX. -/
def fnmatch (name pat : Chars) : Bool :=
  matchAtoms (parseGlobF pat.length pat) name

/-- The per-key test of `retrieve_wildcard` (`etcd.py` lines 84-96):
equal segment counts, then `fnmatch` on each segment pair. -/
def wildSegMatch (pattern key : Chars) : Bool :=
  let segments_search := splitSlash pattern
  let segments_path := splitSlash key
  segments_search.length == segments_path.length &&
    (List.zip segments_search segments_path).all (fun pr => fnmatch pr.2 pr.1)

/-- Model of `client.get_prefix("/")`: the stored pairs whose key starts with
`"/"`, in store order. -/
def rootScan {β : Type} (store : List (Chars × β)) : List (Chars × β) :=
  store.filter (fun kv => (chars "/").isPrefixOf kv.1)

/-- Model of `Etcd.retrieve_wildcard` (`etcd.py` lines 74-108). -/
def retrieve_wildcard {β : Type} (store : List (Chars × β)) (pattern : Chars) :
    Option (List β) :=
  let allData := rootScan store
  let items := allData.foldl
    (fun acc kv => if wildSegMatch pattern kv.1 then acc ++ [kv.2] else acc) []
  if items.isEmpty then none else some items

/-- The claim's reading of `retrieve_wildcard`: the values of *all*
stored keys with the same segment count as the pattern whose every
segment glob-matches, absent when no key matches. -/
def wildcardSpec {β : Type} (store : List (Chars × β)) (pattern : Chars) :
    Option (List β) :=
  let items := (store.filter (fun kv => wildSegMatch pattern kv.1)).map (fun kv => kv.2)
  if items.isEmpty then none else some items

/-! ## JSON values, `json.dumps` and `json.loads` (`etcd.py` upsert/retrieve)

`Etcd.upsert` writes `json.dumps(value)` and `Etcd.retrieve` reads the
stored bytes back through `json.loads`.  Python values are modelled by
`PValue`: `None`, `bool`, `int` (arbitrary precision), `str`, `list`,
and `dict` whose keys may be strings or integers (`json.dumps` coerces
an integer key to its decimal string).  Floating-point numbers are
outside the model.  The encoder follows `json.dumps` with its default
separators `", "` / `": "`; control characters are escaped (`\n`, `\t`,
`\r` with their short forms, others as `\u00XX`), and other characters
are emitted literally (the default `ensure_ascii=True` instead escapes
non-ASCII characters — both encodings are inverted by the same
decoder).  The decoder is a recursive-descent JSON parser restricted to
integral numbers. -/

inductive PKey where
  | kstr (s : Chars)
  | kint (n : Int)

inductive PValue where
  | pnull
  | pbool (b : Bool)
  | pint (n : Int)
  | pstr (s : Chars)
  | plist (xs : List PValue)
  | pdict (fs : List (PKey × PValue))

/-- The decimal digit characters. -/
def digitChar : Nat → Char
  | 0 => '0' | 1 => '1' | 2 => '2' | 3 => '3' | 4 => '4'
  | 5 => '5' | 6 => '6' | 7 => '7' | 8 => '8' | _ => '9'

/-- Decimal rendering of a natural number, fuelled (the fuel is
decremented once per digit; any fuel above the number itself is
enough). -/
def natCharsF : Nat → Nat → Chars → Chars
  | 0, _, acc => acc
  | fuel + 1, n, acc =>
    if n < 10 then digitChar n :: acc
    else natCharsF fuel (n / 10) (digitChar (n % 10) :: acc)

/-- Decimal rendering of a natural number. -/
def natChars (n : Nat) : Chars := natCharsF (n + 1) n []

/-- The `repr` of a Python `int`, as used by `json.dumps`. -/
def intChars (n : Int) : Chars :=
  if n < 0 then '-' :: natChars (-n).toNat else natChars n.toNat

/-- Lowercase hexadecimal digit characters. -/
def hexDigitChar : Nat → Char
  | 0 => '0' | 1 => '1' | 2 => '2' | 3 => '3' | 4 => '4'
  | 5 => '5' | 6 => '6' | 7 => '7' | 8 => '8' | 9 => '9'
  | 10 => 'a' | 11 => 'b' | 12 => 'c' | 13 => 'd' | 14 => 'e' | _ => 'f'

/-- Escape one character of a JSON string. -/
def escChar (c : Char) : Chars :=
  if c = '"' then ['\\', '"']
  else if c = '\\' then ['\\', '\\']
  else if c = '\n' then ['\\', 'n']
  else if c = '\t' then ['\\', 't']
  else if c = '\r' then ['\\', 'r']
  else if c.toNat < 32 then
    ['\\', 'u', '0', '0', hexDigitChar (c.toNat / 16), hexDigitChar (c.toNat % 16)]
  else [c]

/-- Escape a whole string body. -/
def escBody : Chars → Chars
  | [] => []
  | c :: rest => escChar c ++ escBody rest

/-- A quoted, escaped JSON string. -/
def renderStr (s : Chars) : Chars := '"' :: escBody s ++ ['"']

/-- A `dict` key as written by `json.dumps`: string keys are written as
JSON strings, integer keys are coerced to their quoted decimal form. -/
def renderKey : PKey → Chars
  | .kstr s => renderStr s
  | .kint n => '"' :: intChars n ++ ['"']

mutual
/-- Model of `json.dumps` with the default separators. -/
def pyDumps : PValue → Chars
  | .pnull => ['n', 'u', 'l', 'l']
  | .pbool true => ['t', 'r', 'u', 'e']
  | .pbool false => ['f', 'a', 'l', 's', 'e']
  | .pint n => intChars n
  | .pstr s => renderStr s
  | .plist xs => '[' :: renderList xs ++ [']']
  | .pdict fs => '{' :: renderDict fs ++ ['}']

/-- List elements, separated by `", "`. -/
def renderList : List PValue → Chars
  | [] => []
  | [x] => pyDumps x
  | x :: y :: rest => pyDumps x ++ ',' :: ' ' :: renderList (y :: rest)

/-- Dict entries, `key: value` separated by `", "`. -/
def renderDict : List (PKey × PValue) → Chars
  | [] => []
  | [(k, v)] => renderKey k ++ ':' :: ' ' :: pyDumps v
  | (k, v) :: e :: rest =>
    renderKey k ++ ':' :: ' ' :: pyDumps v ++ ',' :: ' ' :: renderDict (e :: rest)
end

mutual
/-- A value already in canonical JSON form: every `dict` key, at every
depth, is a string.  (`json.loads` only ever produces such values.) -/
def canonical : PValue → Bool
  | .pnull => true
  | .pbool _ => true
  | .pint _ => true
  | .pstr _ => true
  | .plist xs => canonicalList xs
  | .pdict fs => canonicalDict fs

/-- Canonicity of the elements of a list. -/
def canonicalList : List PValue → Bool
  | [] => true
  | x :: rest => canonical x && canonicalList rest

/-- Canonicity of the entries of a dict. -/
def canonicalDict : List (PKey × PValue) → Bool
  | [] => true
  | (k, v) :: rest =>
    (match k with | .kstr _ => true | .kint _ => false) && canonical v && canonicalDict rest
end

/-- The decimal digit character class (code points 48-57). -/
def isDigitC (c : Char) : Bool := decide (48 ≤ c.toNat) && decide (c.toNat ≤ 57)

/-- JSON whitespace. -/
def isJsonWs (c : Char) : Bool := c = ' ' || c = '\t' || c = '\n' || c = '\r'

/-- Skip leading JSON whitespace. -/
def skipWs (s : Chars) : Chars := s.dropWhile isJsonWs

/-- Numeric value of a digit character. -/
def digitVal (c : Char) : Nat := c.toNat - 48

/-- Value of a string of digits, most significant first. -/
def digitsVal (l : Chars) : Nat := l.foldl (fun a c => a * 10 + digitVal c) 0

/-- Parse a non-empty run of digits. -/
def parseNat (s : Chars) : Option (Nat × Chars) :=
  let digits := s.takeWhile isDigitC
  if digits.isEmpty then none else some (digitsVal digits, s.dropWhile isDigitC)

/-- Numeric value of one hexadecimal digit. -/
def hexVal (c : Char) : Option Nat :=
  if '0' ≤ c && c ≤ '9' then some (c.toNat - 48)
  else if 'a' ≤ c && c ≤ 'f' then some (c.toNat - 87)
  else if 'A' ≤ c && c ≤ 'F' then some (c.toNat - 55)
  else none

/-- Decode the character named by a one-letter escape. -/
def escDecode (e : Char) : Option Char :=
  if e = '"' then some '"'
  else if e = '\\' then some '\\'
  else if e = '/' then some '/'
  else if e = 'n' then some '\n'
  else if e = 't' then some '\t'
  else if e = 'r' then some '\r'
  else if e = 'b' then some '\x08'
  else if e = 'f' then some '\x0c'
  else none

mutual
/-- Parse the body of a JSON string after the opening quote. -/
def parseStrBody : Chars → Option (Chars × Chars)
  | [] => none
  | c :: rest =>
    if c = '"' then some ([], rest)
    else if c = '\\' then parseEsc rest
    else (parseStrBody rest).map (fun pr => (c :: pr.1, pr.2))

/-- Parse what follows a backslash inside a JSON string. -/
def parseEsc : Chars → Option (Chars × Chars)
  | [] => none
  | 'u' :: a :: b :: c :: d :: rest =>
    match hexVal a, hexVal b, hexVal c, hexVal d with
    | some ha, some hb, some hc, some hd =>
      (parseStrBody rest).map
        (fun pr => (Char.ofNat (((ha * 16 + hb) * 16 + hc) * 16 + hd) :: pr.1, pr.2))
    | _, _, _, _ => none
  | e :: rest =>
    match escDecode e with
    | some c => (parseStrBody rest).map (fun pr => (c :: pr.1, pr.2))
    | none => none
end

mutual
/-- Parse one JSON value (fuelled; integral numbers only). -/
def parseValueF : Nat → Chars → Option (PValue × Chars)
  | 0, _ => none
  | fuel + 1, s =>
    match skipWs s with
    | 'n' :: 'u' :: 'l' :: 'l' :: rest => some (.pnull, rest)
    | 't' :: 'r' :: 'u' :: 'e' :: rest => some (.pbool true, rest)
    | 'f' :: 'a' :: 'l' :: 's' :: 'e' :: rest => some (.pbool false, rest)
    | '"' :: rest => (parseStrBody rest).map (fun pr => (.pstr pr.1, pr.2))
    | '[' :: rest =>
      match skipWs rest with
      | ']' :: r2 => some (.plist [], r2)
      | r2 => parseElemsF fuel r2 []
    | '{' :: rest =>
      match skipWs rest with
      | '}' :: r2 => some (.pdict [], r2)
      | r2 => parseFieldsF fuel r2 []
    | '-' :: rest => (parseNat rest).map (fun pr => (.pint (-(pr.1 : Int)), pr.2))
    | c :: rest =>
      if isDigitC c then (parseNat (c :: rest)).map (fun pr => (.pint (pr.1 : Int), pr.2))
      else none
    | [] => none

/-- Parse the elements of a non-empty JSON array. -/
def parseElemsF : Nat → Chars → List PValue → Option (PValue × Chars)
  | 0, _, _ => none
  | fuel + 1, s, acc =>
    match parseValueF fuel s with
    | none => none
    | some (v, r) =>
      match skipWs r with
      | ',' :: r2 => parseElemsF fuel r2 (acc ++ [v])
      | ']' :: r2 => some (.plist (acc ++ [v]), r2)
      | _ => none

/-- Parse the entries of a non-empty JSON object. -/
def parseFieldsF : Nat → Chars → List (PKey × PValue) → Option (PValue × Chars)
  | 0, _, _ => none
  | fuel + 1, s, acc =>
    match skipWs s with
    | '"' :: rest =>
      match parseStrBody rest with
      | none => none
      | some (k, r) =>
        match skipWs r with
        | ':' :: r2 =>
          match parseValueF fuel r2 with
          | none => none
          | some (v, r3) =>
            match skipWs r3 with
            | ',' :: r4 => parseFieldsF fuel r4 (acc ++ [(.kstr k, v)])
            | '}' :: r4 => some (.pdict (acc ++ [(.kstr k, v)]), r4)
            | _ => none
        | _ => none
    | _ => none
end

/-- Model of `json.loads` (restricted to the modelled fragment): parse one value
and require only whitespace after it. -/
def pyLoads (s : Chars) : Option PValue :=
  match parseValueF (s.length + 1) s with
  | some (v, rest) => if (skipWs rest).isEmpty then some v else none
  | none => none

/-! ## The etcd-backed key/value store (`etcd.py` upsert/retrieve)

The keyspace is modelled as a list of `(key, stored-bytes)` pairs. -/

/-- Model of `client.put(key, w)`: replace any existing entry for the key. -/
def etcdPut (store : List (Chars × Chars)) (key w : Chars) : List (Chars × Chars) :=
  store.filter (fun kv => !(kv.1 == key)) ++ [(key, w)]

/-- Model of `client.get(key)`: the stored bytes, if present. -/
def etcdGet (store : List (Chars × Chars)) (key : Chars) : Option Chars :=
  (store.find? (fun kv => kv.1 == key)).map (fun kv => kv.2)

/-- Model of `Etcd.upsert` (`etcd.py` lines 59-64): store `json.dumps(value)`. -/
def upsert (store : List (Chars × Chars)) (key : Chars) (value : PValue) :
    List (Chars × Chars) :=
  etcdPut store key (pyDumps value)

/-- The possible outcomes of `Etcd.retrieve`. -/
inductive RetrieveResult where
  /-- `client.get` returned nothing; `retrieve` returns `None`. -/
  | absent
  /-- The stored bytes were falsy (`b""`); `retrieve` returns them raw,
  skipping `json.loads` (the `if value:` test at `etcd.py` line 69). -/
  | raw (w : Chars)
  /-- The decoded JSON value. -/
  | value (v : PValue)
  /-- `json.loads` would raise on the stored bytes. -/
  | parseFailure

/-- Model of `Etcd.retrieve` (`etcd.py` lines 66-72). -/
def retrieve (store : List (Chars × Chars)) (key : Chars) : RetrieveResult :=
  match etcdGet store key with
  | none => .absent
  | some w =>
    if w.isEmpty then .raw w
    else
      match pyLoads w with
      | some v => .value v
      | none => .parseFailure

/-! ## A fuel measure dominated by the rendered length -/

mutual
/-- Fuel needed by `parseValueF` to parse a rendered value. -/
def need : PValue → Nat
  | .pnull => 1
  | .pbool _ => 1
  | .pint _ => 1
  | .pstr _ => 1
  | .plist xs => 1 + needElems xs
  | .pdict fs => 1 + needFields fs

/-- Fuel needed by `parseElemsF` for the rendered elements. -/
def needElems : List PValue → Nat
  | [] => 0
  | x :: rest => 1 + need x + needElems rest

/-- Fuel needed by `parseFieldsF` for the rendered entries. -/
def needFields : List (PKey × PValue) → Nat
  | [] => 0
  | (_, v) :: rest => 1 + need v + needFields rest
end

theorem starTails_ne_nil (a : RAtom) (s : Chars) : starTails a s ≠ [] := by
  cases s <;> simp [starTails]

/-- The pattern `.*` matches every subject (it is never rejected by `re.match`). -/
theorem reMatch_dotstar (s : Chars) : reMatch (chars ".*") s = true := by
  have h := starTails_ne_nil .dot s
  cases hs : starTails .dot s with
  | nil => exact absurd hs h
  | cons t ts => simp [reMatch, chars, parseRe, matchToks, hs]

/-- The catch-all pattern `/.*` matches `"/" + path` for every path. -/
theorem reMatch_catchall (path : Chars) :
    reMatch (chars "/.*") ('/' :: path) = true := by
  have h := starTails_ne_nil .dot path
  cases hs : starTails .dot path with
  | nil => exact absurd hs h
  | cons t ts => simp [reMatch, chars, parseRe, matchToks, atomMatch, hs]

theorem orElse_some_orElse (x : Option α) (a : α) (y : Option α) :
    ((x <|> some a) <|> y) = (x <|> some a) := by
  cases x <;> rfl

theorem getLast?_cons' (a : α) (l : List α) :
    (a :: l).getLast? = (l.getLast? <|> some a) := by
  cases l with
  | nil => rfl
  | cons b t =>
    rw [List.getLast?_cons_cons]
    cases h : (b :: t).getLast? with
    | none => exact absurd h (by simp)
    | some x => rfl

theorem scanRoutes_go (m : Chars → Chars → Bool) (path : Chars) :
    ∀ (routes : List Route) (c0 : Option Route) (ms0 : List Route),
      routes.foldl
        (fun acc route =>
          if m route.source ('/' :: path) then
            if route.source = chars "/.*" then (some route, acc.2)
            else (acc.1, acc.2 ++ [route])
          else acc)
        (c0, ms0)
      = ((catchAllMatches m path routes).getLast? <|> c0,
         ms0 ++ specificMatches m path routes) := by
  intro routes
  induction routes with
  | nil => intro c0 ms0; simp [catchAllMatches, specificMatches]
  | cons r rest ih =>
    intro c0 ms0
    by_cases hm : m r.source ('/' :: path) = true
    · by_cases hc : r.source = chars "/.*"
      · have hm2 : m (chars "/.*") ('/' :: path) = true := hc ▸ hm
        have hcatch : catchAllMatches m path (r :: rest) =
            r :: catchAllMatches m path rest := by
          simp [catchAllMatches, List.filter_cons, hm, hc, hm2]
        have hspec : specificMatches m path (r :: rest) =
            specificMatches m path rest := by
          simp [specificMatches, List.filter_cons, hm, hc, hm2]
        simp only [List.foldl_cons, hm, if_true, if_pos hc]
        rw [ih (some r) ms0, hcatch, hspec, getLast?_cons', orElse_some_orElse]
      · have hcatch : catchAllMatches m path (r :: rest) =
            catchAllMatches m path rest := by
          simp [catchAllMatches, List.filter_cons, hm, hc]
        have hspec : specificMatches m path (r :: rest) =
            r :: specificMatches m path rest := by
          simp [specificMatches, List.filter_cons, hm, hc]
        simp only [List.foldl_cons, hm, if_true, if_neg hc]
        rw [ih c0 (ms0 ++ [r]), hcatch, hspec]
        simp
    · have hm' : m r.source ('/' :: path) = false := by
        simpa using hm
      have hcatch : catchAllMatches m path (r :: rest) =
          catchAllMatches m path rest := by
        simp [catchAllMatches, List.filter_cons, hm']
      have hspec : specificMatches m path (r :: rest) =
          specificMatches m path rest := by
        simp [specificMatches, List.filter_cons, hm']
      simp only [List.foldl_cons, hm', Bool.false_eq_true, if_false]
      rw [ih c0 ms0, hcatch, hspec]

theorem scanRoutes_eq (m : Chars → Chars → Bool) (path : Chars) (routes : List Route) :
    scanRoutes m path routes =
      ((catchAllMatches m path routes).getLast?, specificMatches m path routes) := by
  have h := scanRoutes_go m path routes none []
  simpa [scanRoutes] using h

/-! ## Claim theorems: routing -/

/-- C1: For every route table and every request path, the router's match
decision follows the decision table: each route's source pattern is
tested against `"/" + path`; exactly one specific (non-catch-all) match
is selected regardless of the catch-all; zero specific matches select
the catch-all when one exists and otherwise fail with the
no-matching-route outcome; two or more specific matches fail with the
ambiguity outcome carrying all contending routes.  Stated for every
match function `m`, hence in particular for `reMatch`. -/
theorem C1_router_decision_table (m : Chars → Chars → Bool)
    (routes : List Route) (path : Chars) :
    routeDecision m routes path =
      decisionTable (specificMatches m path routes) (catchAllMatches m path routes) := by
  unfold routeDecision decisionTable
  rw [scanRoutes_eq m path routes]
  rcases specificMatches m path routes with _ | ⟨r, _ | ⟨r2, rs⟩⟩ <;>
    rcases (catchAllMatches m path routes).getLast? with _ | c <;> rfl

/-- C8: For a route table whose catch-all entries (source pattern
literally `"/.*"`) number two or more, when no specific route matches,
the route used is the *last* catch-all of the table: later entries
overwrite earlier ones during the scan. -/
theorem C8_last_catchall_wins (routes : List Route) (path : Chars) (c : Route)
    (hspec : specificMatches reMatch path routes = [])
    (hcount : 2 ≤ (routes.filter (fun r => decide (r.source = chars "/.*"))).length)
    (hlast : (routes.filter (fun r => decide (r.source = chars "/.*"))).getLast? = some c) :
    routeDecision reMatch routes path = .useCatchall c := by
  have hca : catchAllMatches reMatch path routes =
      routes.filter (fun r => decide (r.source = chars "/.*")) := by
    unfold catchAllMatches
    apply List.filter_congr
    intro r _
    by_cases h : r.source = chars "/.*"
    · simp [h, reMatch_catchall]
    · simp [h]
  unfold routeDecision
  rw [scanRoutes_eq, hspec, hca, hlast]

/-- C8 witness: a table with two catch-all entries and no matching
specific route uses the second catch-all. -/
theorem C8_last_catchall_wins_witness :
    routeDecision reMatch
      [⟨chars "/x", chars "a"⟩, ⟨chars "/.*", chars "b"⟩, ⟨chars "/.*", chars "c"⟩]
      (chars "y")
    = .useCatchall ⟨chars "/.*", chars "c"⟩ :=
  C8_last_catchall_wins _ _ _ (by decide) (by decide) (by decide)

/-- C10: a matching route is classified as the catch-all iff its source
is the literal string `"/.*"`; the pattern `".*"` matches every subject
yet counts as a specific match, so it participates in the ambiguity
check and suppresses catch-all fallback: in a table containing the
routes `(".*", a)` and `("/.*", b)`, every path selects the `".*"`
route. -/
theorem C10_literal_catchall_classification (routes : List Route) (path : Chars) :
    (∀ r ∈ routes, reMatch r.source ('/' :: path) = true →
        (r ∈ catchAllMatches reMatch path routes ↔ r.source = chars "/.*")) ∧
    (∀ s : Chars, reMatch (chars ".*") s = true) ∧
    (∀ a b : Chars,
      routeDecision reMatch [⟨chars ".*", a⟩, ⟨chars "/.*", b⟩] path =
        .useRoute ⟨chars ".*", a⟩) := by
  refine ⟨?_, reMatch_dotstar, ?_⟩
  · intro r hr hm
    simp [catchAllMatches, List.mem_filter, hr, hm]
  · intro a b
    have hne : ¬(chars ".*" = chars "/.*") := by decide
    unfold routeDecision
    rw [scanRoutes_eq]
    have hspec : specificMatches reMatch path [⟨chars ".*", a⟩, ⟨chars "/.*", b⟩] =
        [⟨chars ".*", a⟩] := by
      simp [specificMatches, List.filter_cons, reMatch_dotstar, reMatch_catchall, hne]
    rw [hspec]
    rcases (catchAllMatches reMatch path
        [⟨chars ".*", a⟩, ⟨chars "/.*", b⟩]).getLast? with _ | c <;> rfl

/-- C10 witness: instantiating the classification at a concrete matching
route. -/
theorem C10_literal_catchall_classification_witness :
    (⟨chars "/.*", chars "b"⟩ : Route) ∈
        catchAllMatches reMatch (chars "y") [⟨chars "/.*", chars "b"⟩] ∧
    routeDecision reMatch [⟨chars ".*", chars "a"⟩, ⟨chars "/.*", chars "b"⟩] (chars "y") =
      .useRoute ⟨chars ".*", chars "a"⟩ :=
  ⟨((C10_literal_catchall_classification [⟨chars "/.*", chars "b"⟩] (chars "y")).1
      ⟨chars "/.*", chars "b"⟩ (by decide) (by decide)).mpr rfl,
   (C10_literal_catchall_classification [] (chars "y")).2.2 (chars "a") (chars "b")⟩

/-! ## Claim theorems: top-level error mapping and dynamic resolution -/

/-- C2 counterexample: with an empty route table (no specific match, no
catch-all), the gateway answers path `"x"` with HTTP 500 — not 404 as
the claim states — because the no-matching-route failure is raised as a
plain `BgsException` (`server.py` line 248), which the handler of
`route_path` maps through its generic `except Exception` branch. -/
theorem C2_noroute_counterexample :
    route_path reMatch (fun _ => .error .typeError)
        (fun _ => (.ok 0 : Except Exc Nat)) [] (chars "x") = .error 500 ∧
    route_path reMatch (fun _ => .error .typeError)
        (fun _ => (.ok 0 : Except Exc Nat)) [] (chars "x") ≠ .error 404 := by
  constructor <;> decide

/-- C2 amended: a request whose path matches no configured route (no
specific match and no catch-all) is answered with HTTP status 500 (the
unknown-exception mapping), because `handle_request` raises the base
`BgsException`, not the `NotFound` kind; HTTP 404 is produced for the
`NotFound` kind, e.g. when dynamic resolution fails for a missing
identifier or a missing directory record. -/
theorem C2_noroute_maps_to_500 {α : Type} (m : Chars → Chars → Bool)
    (resolve : Chars → Except Exc Chars) (forward : Chars → Except Exc α)
    (routes : List Route) (path : Chars) :
    (routeDecision m routes path = .noRoute →
      route_path m resolve forward routes path = .error 500) ∧
    (∀ r : Route, routeDecision m routes path = .useRoute r →
      r.target = resolverSentinel → resolve path = .error .bgsNotFound →
      route_path m resolve forward routes path = .error 404) := by
  constructor
  · intro h
    unfold route_path handle_request
    rw [h]
    rfl
  · intro r h ht hres
    unfold route_path handle_request
    rw [h]
    simp [ht, hres, excStatus]

/-- C2 amended witness: an empty table yields 500 for path `"x"`; a
single dynamic route whose resolution fails with the NotFound kind
yields 404. -/
theorem C2_noroute_maps_to_500_witness :
    route_path reMatch (fun _ => .error .typeError)
        (fun _ => (.ok 0 : Except Exc Nat)) [] (chars "x") = .error 500 ∧
    route_path reMatch (fun _ => .error .bgsNotFound)
        (fun _ => (.ok 0 : Except Exc Nat))
        [⟨chars "/x", resolverSentinel⟩] (chars "x") = .error 404 :=
  ⟨(C2_noroute_maps_to_500 reMatch (fun _ => .error .typeError)
      (fun _ => (.ok 0 : Except Exc Nat)) [] (chars "x")).1 (by decide),
   (C2_noroute_maps_to_500 reMatch (fun _ => .error .bgsNotFound)
      (fun _ => (.ok 0 : Except Exc Nat))
      [⟨chars "/x", resolverSentinel⟩] (chars "x")).2
      ⟨chars "/x", resolverSentinel⟩ (by decide) rfl rfl⟩

/-- C3: the code extracts the product UUID from the scenario path, but
the directory can never be queried: the call at `server.py` line 277
passes one argument to the two-parameter
`Registrar.retrieve_product_address`, so every dynamically resolved
request raises `TypeError` and is answered 500 instead of being
forwarded to `resolved_address + "/" + path`. -/
theorem C3_dynamic_resolution_typeerror {α : Type} (forward : Chars → Except Exc α) :
    uuidSearch scenarioPath = some (chars "3fa85f64-5717-4562-b3fc-2c963f66afa6") ∧
    route_path reMatch (dynamic_resolver retrieve_product_address_call) forward
        scenarioRoutes scenarioPath = .error 500 := by
  constructor
  · decide
  · have hdec : routeDecision reMatch scenarioRoutes scenarioPath =
        .useRoute ⟨chars "/api/products/.*", chars "dataproduct_resolver"⟩ := by decide
    have hres : dynamic_resolver retrieve_product_address_call scenarioPath =
        .error .typeError := by decide
    unfold route_path handle_request
    rw [hdec]
    simp [resolverSentinel, hres, excStatus, chars]

/-- C5: each forwarding failure class maps to exactly its fixed
caller-visible status: connect timeout → 504, connect refused → 503,
another network-level I/O error → 503, read timeout → 504, a backend
error status raised by the client library → that status (in particular
a backend 404 propagates as 404), another request/transport error → 502,
and an unclassified error → 500; `route_path` re-raises the resulting
`HTTPException` unchanged, so `excStatus` preserves the status. -/
theorem C5_forward_taxonomy {α : Type} :
    (forward_request (.error .connectTimeout : Except HttpxFailure α) =
      .error (.httpExc 504)) ∧
    (forward_request (.error .connectError : Except HttpxFailure α) =
      .error (.httpExc 503)) ∧
    (forward_request (.error .readError : Except HttpxFailure α) =
      .error (.httpExc 503)) ∧
    (forward_request (.error .readTimeout : Except HttpxFailure α) =
      .error (.httpExc 504)) ∧
    (∀ s : Nat, forward_request (.error (.httpStatusError s) : Except HttpxFailure α) =
      .error (.httpExc s)) ∧
    (forward_request (.error (.httpStatusError 404) : Except HttpxFailure α) =
      .error (.httpExc 404)) ∧
    (forward_request (.error .protocolError : Except HttpxFailure α) =
      .error (.httpExc 502)) ∧
    (forward_request (.error .invalidURL : Except HttpxFailure α) =
      .error (.httpExc 500)) ∧
    (∀ s : Nat, excStatus (.httpExc s) = s) :=
  ⟨rfl, rfl, rfl, rfl, fun _ => rfl, rfl, rfl, rfl, fun _ => rfl⟩

/-! ## Leftmost-UUID characterisation for the resolver -/

theorem uuidSearch_none_iff :
    ∀ path : Chars, uuidSearch path = none ↔ ∀ i, matchUuidAt (path.drop i) = none := by
  intro path
  induction path with
  | nil =>
    constructor
    · intro _ i
      have hd : List.drop i ([] : Chars) = [] := by simp
      rw [hd]; rfl
    · intro _; rfl
  | cons c rest ih =>
    constructor
    · intro h i
      cases hm : matchUuidAt (c :: rest) with
      | some u => simp [uuidSearch, hm] at h
      | none =>
        cases i with
        | zero => simpa using hm
        | succ j =>
          have h' : uuidSearch rest = none := by
            simpa [uuidSearch, hm] using h
          simpa [List.drop_succ_cons] using (ih.mp h') j
    · intro h
      have h0 : matchUuidAt (c :: rest) = none := by simpa using h 0
      have h' : ∀ i, matchUuidAt (rest.drop i) = none := by
        intro i
        simpa [List.drop_succ_cons] using h (i + 1)
      simp [uuidSearch, h0, ih.mpr h']

theorem uuidSearch_some_iff :
    ∀ (path : Chars) (u : Chars), uuidSearch path = some u ↔
      ∃ i, matchUuidAt (path.drop i) = some u ∧
        ∀ j < i, matchUuidAt (path.drop j) = none := by
  intro path
  induction path with
  | nil =>
    intro u
    constructor
    · intro h; simp [uuidSearch] at h
    · rintro ⟨i, hi, -⟩
      simp at hi
      cases hi
  | cons c rest ih =>
    intro u
    cases hm : matchUuidAt (c :: rest) with
    | some v =>
      constructor
      · intro h
        refine ⟨0, ?_, by omega⟩
        simpa [uuidSearch, hm] using h
      · rintro ⟨i, hi, hmin⟩
        cases i with
        | zero =>
          simp at hi
          simp [uuidSearch, hi]
        | succ j =>
          have := hmin 0 (by omega)
          simp [hm] at this
    | none =>
      constructor
      · intro h
        have h' : uuidSearch rest = some u := by
          simpa [uuidSearch, hm] using h
        obtain ⟨i, hi, hmin⟩ := (ih u).mp h'
        refine ⟨i + 1, by simpa [List.drop_succ_cons] using hi, ?_⟩
        intro j hj
        cases j with
        | zero => simpa using hm
        | succ k =>
          have : k < i := by omega
          simpa [List.drop_succ_cons] using hmin k this
      · rintro ⟨i, hi, hmin⟩
        cases i with
        | zero =>
          simp at hi
          rw [hi] at hm
          cases hm
        | succ j =>
          have hrest : uuidSearch rest = some u := by
            apply (ih u).mpr
            refine ⟨j, by simpa [List.drop_succ_cons] using hi, ?_⟩
            intro k hk
            simpa [List.drop_succ_cons] using hmin (k + 1) (by omega)
          simp [uuidSearch, hm, hrest]

/-- C4: for a path containing no substring of the canonical UUID shape,
`_service_discovery` fails with the NotFound kind and makes no directory
call; for a path containing at least one, exactly the first (leftmost)
occurrence is the identifier passed to the directory lookup.  The second
component of `service_discovery` is the list of identifiers actually
passed to the lookup. -/
theorem C4_resolver_uuid (lookup : Chars → Except Exc Chars) (path : Chars) :
    (uuidSearch path = none →
      service_discovery lookup path = (.error .bgsNotFound, [])) ∧
    (∀ u, uuidSearch path = some u → (service_discovery lookup path).2 = [u]) ∧
    (uuidSearch path = none ↔ ∀ i, matchUuidAt (path.drop i) = none) ∧
    (∀ u, uuidSearch path = some u ↔
      ∃ i, matchUuidAt (path.drop i) = some u ∧
        ∀ j < i, matchUuidAt (path.drop j) = none) := by
  refine ⟨?_, ?_, uuidSearch_none_iff path, uuidSearch_some_iff path⟩
  · intro h; simp [service_discovery, h]
  · intro u h; simp [service_discovery, h]

/-- C4 witness: a path with no UUID yields NotFound with no directory
call; a path with two UUIDs passes exactly the first one to the lookup. -/
theorem C4_resolver_uuid_witness :
    service_discovery (fun _ => .ok (chars "addr")) (chars "api/products/uuid/none")
      = (.error .bgsNotFound, []) ∧
    (service_discovery (fun _ => .ok (chars "addr"))
        (chars "a/3fa85f64-5717-4562-b3fc-2c963f66afa6/b/00000000-0000-0000-0000-000000000000")).2
      = [chars "3fa85f64-5717-4562-b3fc-2c963f66afa6"] :=
  ⟨(C4_resolver_uuid (fun _ => .ok (chars "addr")) (chars "api/products/uuid/none")).1
      (by decide),
   (C4_resolver_uuid (fun _ => .ok (chars "addr"))
      (chars "a/3fa85f64-5717-4562-b3fc-2c963f66afa6/b/00000000-0000-0000-0000-000000000000")).2.1
      (chars "3fa85f64-5717-4562-b3fc-2c963f66afa6") (by decide)⟩

theorem segPrec_iff (p q : Chars) :
    segPrec p q = true ↔
      p = q ∨ p = ['/'] ∨ (p ≠ [] ∧ ∃ r, q = p ++ '/' :: r) := by
  unfold segPrec
  rw [Bool.or_eq_true, Bool.or_eq_true, Bool.and_eq_true]
  simp only [beq_iff_eq, Bool.not_eq_true', beq_eq_false_iff_ne, ne_eq]
  constructor
  · rintro ((h | h) | ⟨hne, hpre⟩)
    · exact .inl h
    · exact .inr (.inl h)
    · refine .inr (.inr ⟨hne, ?_⟩)
      obtain ⟨t, ht⟩ := List.isPrefixOf_iff_prefix.mp hpre
      exact ⟨t, by rw [← ht]; simp⟩
  · rintro (h | h | ⟨hne, r, hr⟩)
    · exact .inl (.inl h)
    · exact .inl (.inr h)
    · refine .inr ⟨hne, List.isPrefixOf_iff_prefix.mpr ⟨r, ?_⟩⟩
      rw [hr]; simp

/-! Facts about `splitSlash`, `joinSlash` and `incsFrom`. -/

theorem splitSlash_ne_nil (l : Chars) : splitSlash l ≠ [] := by
  cases l with
  | nil => simp [splitSlash]
  | cons c rest =>
    simp only [splitSlash]
    by_cases h : c = '/' <;> simp [h]

theorem joinSlash_splitSlash (l : Chars) : joinSlash (splitSlash l) = l := by
  induction l with
  | nil => rfl
  | cons c rest ih =>
    rcases hr : splitSlash rest with _ | ⟨h, t⟩
    · exact absurd hr (splitSlash_ne_nil rest)
    · by_cases hc : c = '/'
      · subst hc
        simp only [splitSlash, if_pos rfl, hr]
        show '/' :: joinSlash (h :: t) = '/' :: rest
        rw [← hr, ih]
      · simp only [splitSlash, if_neg hc, hr]
        cases t with
        | nil =>
          show c :: h = c :: rest
          rw [← ih, hr]
          rfl
        | cons t1 t2 =>
          show (c :: h) ++ '/' :: joinSlash (t1 :: t2) = c :: rest
          have : joinSlash (h :: t1 :: t2) = rest := by rw [← hr, ih]
          rw [← this]
          rfl

theorem splitSlash_no_slash (l : Chars) : ∀ s ∈ splitSlash l, '/' ∉ s := by
  induction l with
  | nil => intro s hs; simp [splitSlash] at hs; simp [hs]
  | cons c rest ih =>
    intro s hs
    rcases hr : splitSlash rest with _ | ⟨h, t⟩
    · exact absurd hr (splitSlash_ne_nil rest)
    · by_cases hc : c = '/'
      · rw [splitSlash] at hs
        simp only [hc, if_pos rfl] at hs
        rcases List.mem_cons.mp hs with h1 | h1
        · simp [h1]
        · exact ih s h1
      · rw [splitSlash] at hs
        simp only [if_neg hc, hr] at hs
        rcases List.mem_cons.mp hs with h1 | h1
        · subst h1
          intro hmem
          rcases List.mem_cons.mp hmem with h2 | h2
          · exact hc h2.symm
          · have : h ∈ splitSlash rest := by rw [hr]; exact List.mem_cons_self h t
            exact ih h this h2
        · have : s ∈ splitSlash rest := by
            rw [hr]; exact List.mem_cons_of_mem h h1
          exact ih s this

theorem incsFrom_length (segs : List Chars) :
    ∀ acc x, x ∈ incsFrom acc segs → acc.length < x.length := by
  induction segs with
  | nil => intro acc x hx; simp [incsFrom] at hx
  | cons s rest ih =>
    intro acc x hx
    rcases List.mem_cons.mp hx with h | h
    · subst h; simp
    · have h1 := ih (acc ++ '/' :: s) x h
      simp at h1
      omega

theorem incsFrom_count_le_one (segs : List Chars) :
    ∀ acc (q : Chars), (incsFrom acc segs).count q ≤ 1 := by
  induction segs with
  | nil => intro acc q; simp [incsFrom]
  | cons s rest ih =>
    intro acc q
    rw [incsFrom, List.count_cons]
    by_cases hq : q = acc ++ '/' :: s
    · subst hq
      have hnot : (acc ++ '/' :: s) ∉ incsFrom (acc ++ '/' :: s) rest := by
        intro hmem
        have := incsFrom_length rest (acc ++ '/' :: s) _ hmem
        omega
      have hz : (incsFrom (acc ++ '/' :: s) rest).count (acc ++ '/' :: s) = 0 :=
        List.count_eq_zero.mpr hnot
      simp [hz]
    · have : ¬((acc ++ '/' :: s) == q) = true := by
        simp only [beq_iff_eq]
        intro h; exact hq h.symm
      simp only [this, if_false]
      exact Nat.le_trans (Nat.le_of_eq rfl) (by simpa using ih (acc ++ '/' :: s) q)

theorem incsFrom_head (segs : List Chars) :
    ∀ acc, (acc = [] ∨ acc.head? = some '/') →
      ∀ x ∈ incsFrom acc segs, x.head? = some '/' := by
  induction segs with
  | nil => intro acc _ x hx; simp [incsFrom] at hx
  | cons s rest ih =>
    intro acc hacc x hx
    have hhead : (acc ++ '/' :: s).head? = some '/' := by
      rcases hacc with h | h
      · subst h; rfl
      · cases acc with
        | nil => rfl
        | cons a t => simpa using h
    rcases List.mem_cons.mp hx with h | h
    · rw [h]; exact hhead
    · exact ih (acc ++ '/' :: s) (.inr hhead) x h

/-- Cutting `acc ++ '/' :: s` at a `'/'` boundary: since `s` contains no
slash, the cut is either exactly at the final boundary (`p = acc`) or
inside `acc` at one of its own boundaries. -/
theorem append_slash_cut :
    ∀ (acc p s r : Chars), '/' ∉ s → acc ++ '/' :: s = p ++ '/' :: r →
      p = acc ∨ ∃ r2, acc = p ++ '/' :: r2 := by
  intro acc
  induction acc with
  | nil =>
    intro p s r hs h
    cases p with
    | nil => exact .inl rfl
    | cons c p' =>
      simp only [List.nil_append, List.cons_append] at h
      obtain ⟨hc, hrest⟩ := List.cons.injEq _ _ _ _ ▸ h
      exfalso
      apply hs
      rw [hrest]
      exact List.mem_append_right _ (List.mem_cons_self _ _)
  | cons a acc' ih =>
    intro p s r hs h
    cases p with
    | nil =>
      simp only [List.cons_append, List.nil_append] at h
      obtain ⟨hc, hrest⟩ := List.cons.injEq _ _ _ _ ▸ h
      refine .inr ⟨acc', ?_⟩
      rw [← hc]
      rfl
    | cons c p' =>
      simp only [List.cons_append] at h
      obtain ⟨hc, hrest⟩ := List.cons.injEq _ _ _ _ ▸ h
      rcases ih p' s r hs hrest with h1 | ⟨r2, h2⟩
      · subst h1; subst hc; exact .inl rfl
      · refine .inr ⟨r2, ?_⟩
        rw [h2, hc]
        rfl

/-- If an incremental path `q` is cut at a `'/'` boundary, the piece
before the cut is an earlier incremental path, the starting accumulator,
or a boundary cut of the starting accumulator. -/
theorem incsFrom_cut (segs : List Chars) :
    ∀ acc, (∀ s ∈ segs, '/' ∉ s) →
      ∀ q ∈ incsFrom acc segs, ∀ p r, q = p ++ '/' :: r →
        p ∈ incsFrom acc segs ∨ p = acc ∨ ∃ r2, acc = p ++ '/' :: r2 := by
  induction segs with
  | nil => intro acc _ q hq; simp [incsFrom] at hq
  | cons s rest ih =>
    intro acc hseg q hq p r hcut
    have hs : '/' ∉ s := hseg s (List.mem_cons_self _ _)
    have hrest : ∀ x ∈ rest, '/' ∉ x := fun x hx => hseg x (List.mem_cons_of_mem _ hx)
    rcases List.mem_cons.mp hq with h | h
    · subst h
      rcases append_slash_cut acc p s r hs hcut with h1 | h1
      · exact .inr (.inl h1)
      · exact .inr (.inr h1)
    · rcases ih (acc ++ '/' :: s) hrest q h p r hcut with h1 | h1 | ⟨r2, h2⟩
      · exact .inl (List.mem_cons_of_mem _ h1)
      · subst h1
        exact .inl (List.mem_cons_self _ _)
      · rcases append_slash_cut acc p s r2 hs h2 with h3 | h3
        · exact .inr (.inl h3)
        · exact .inr (.inr h3)

/-- The number of bumps a record gives key `q` never exceeds the number
it gives any segment-predecessor `p` of `q`. -/
theorem bumpKeys_count_dom (path p q : Chars) (hp : p ≠ [])
    (hpq : segPrec p q = true) :
    (bumpKeys path).count q ≤ (bumpKeys path).count p := by
  rcases (segPrec_iff p q).mp hpq with h | h | ⟨-, r, hr⟩
  · subst h; exact Nat.le_refl _
  · subst h
    by_cases hq : q = ['/']
    · subst hq; exact Nat.le_refl _
    · have h1 : (bumpKeys path).count q ≤ 1 := by
        unfold bumpKeys
        rw [List.count_cons]
        have : ¬(['/'] == q) = true := by
          simp only [beq_iff_eq]
          intro h; exact hq h.symm
        simp only [this, if_false]
        simpa using incsFrom_count_le_one (splitSlash path).tail [] q
      have h2 : 1 ≤ (bumpKeys path).count ['/'] := by
        unfold bumpKeys
        rw [List.count_cons]
        simp
      omega
  · -- q = p ++ '/' :: r with p nonempty
    by_cases hq : q ∈ incsFrom [] (splitSlash path).tail
    · have hpmem : p ∈ bumpKeys path := by
        have hseg : ∀ s ∈ (splitSlash path).tail, '/' ∉ s := by
          intro s hs
          exact splitSlash_no_slash path s (List.mem_of_mem_tail hs)
        rcases incsFrom_cut (splitSlash path).tail [] hseg q hq p r hr with h1 | h1 | ⟨r2, h2⟩
        · exact List.mem_cons_of_mem _ h1
        · exact absurd h1 hp
        · simp at h2
      have hq1 : (bumpKeys path).count q ≤ 1 := by
        have hqroot : q ≠ ['/'] := by
          rw [hr]
          intro h
          have hlen := congrArg List.length h
          have hple : 0 < p.length := List.length_pos.mpr hp
          simp at hlen
          omega
        unfold bumpKeys
        rw [List.count_cons]
        have : ¬(['/'] == q) = true := by
          simp only [beq_iff_eq]
          intro h; exact hqroot h.symm
        simp only [this, if_false]
        simpa using incsFrom_count_le_one (splitSlash path).tail [] q
      have hp1 : 1 ≤ (bumpKeys path).count p := by
        exact List.one_le_count_iff.mpr hpmem
      omega
    · have hz : (bumpKeys path).count q = 0 := by
        apply List.count_eq_zero.mpr
        intro hmem
        rcases List.mem_cons.mp hmem with h1 | h1
        · rw [hr] at h1
          have hlen := congrArg List.length h1
          have hple : 0 < p.length := List.length_pos.mpr hp
          simp at hlen
          omega
        · exact hq h1
      omega

/-- Folding `bumpFn` over a key list adds, at every key, exactly its
number of occurrences in the list. -/
theorem foldl_bump_count :
    ∀ (keys : List Chars) (f : Chars → Nat) (k : Chars),
      (keys.foldl (fun g q => bumpFn q g) f) k = f k + keys.count k := by
  intro keys
  induction keys with
  | nil => intro f k; simp
  | cons q rest ih =>
    intro f k
    rw [List.foldl_cons, ih, List.count_cons]
    unfold bumpFn
    by_cases h : k = q
    · subst h; simp; omega
    · have : ¬(q == k) = true := by
        simp only [beq_iff_eq]
        intro h1; exact h h1.symm
      simp [h, this]

/-- The counter change of one `Stats.process` call. -/
theorem statsProcess_statistics (path : Chars) (st : StatsState) (k : Chars) :
    (statsProcess path st).statistics k = st.statistics k + (bumpKeys path).count k :=
  foldl_bump_count (bumpKeys path) st.statistics k

/-- Counters never decrease at any single call. -/
theorem applyOp_mono (op : StatsOp) (st : StatsState) (k : Chars) :
    st.statistics k ≤ (applyOp op st).statistics k := by
  cases op with
  | record path =>
    rw [applyOp, statsProcess_statistics]
    omega
  | recordError path msg =>
    show st.statistics k ≤ bumpFn errKey st.statistics k
    unfold bumpFn
    by_cases h : k = errKey <;> simp [h]

/-- Counters never decrease across any run. -/
theorem runFrom_mono :
    ∀ (ops : List StatsOp) (st : StatsState) (k : Chars),
      st.statistics k ≤ (runFrom st ops).statistics k := by
  intro ops
  induction ops with
  | nil => intro st k; exact Nat.le_refl _
  | cons op rest ih =>
    intro st k
    exact Nat.le_trans (applyOp_mono op st k) (ih (applyOp op st) k)

theorem statsDom_init : statsDom (fun _ => 0) := by
  intro p q _ _ _; exact Nat.le_refl _

theorem statsDom_apply (op : StatsOp) (st : StatsState)
    (h : statsDom st.statistics) : statsDom (applyOp op st).statistics := by
  cases op with
  | record path =>
    intro p q hp hq hpq
    rw [applyOp, statsProcess_statistics, statsProcess_statistics]
    have h1 := h p q hp hq hpq
    have h2 := bumpKeys_count_dom path p q hp hpq
    omega
  | recordError path msg =>
    intro p q hp hq hpq
    show bumpFn errKey st.statistics q ≤ bumpFn errKey st.statistics p
    have h1 := h p q hp hq hpq
    have hqe : q ≠ errKey := by
      intro he
      rw [he] at hq
      simp [errKey, chars] at hq
    have hphead : p.head? = some '/' := by
      rcases (segPrec_iff p q).mp hpq with h2 | h2 | ⟨-, r, h2⟩
      · rw [h2]; exact hq
      · rw [h2]; rfl
      · cases p with
        | nil => exact absurd rfl hp
        | cons a t =>
          rw [h2] at hq
          simpa using hq
    have hpe : p ≠ errKey := by
      intro he
      rw [he] at hphead
      simp [errKey, chars] at hphead
    unfold bumpFn
    simp only [if_neg hqe, if_neg hpe]
    exact h1

theorem statsDom_runFrom :
    ∀ (ops : List StatsOp) (st : StatsState),
      statsDom st.statistics → statsDom (runFrom st ops).statistics := by
  intro ops
  induction ops with
  | nil => intro st h; exact h
  | cons op rest ih =>
    intro st h
    exact ih (applyOp op st) (statsDom_apply op st h)

/-- Every key bumped by `Stats.process` starts with `'/'`. -/
theorem bumpKeys_head (path : Chars) :
    ∀ q ∈ bumpKeys path, q.head? = some '/' := by
  intro q hq
  rcases List.mem_cons.mp hq with h | h
  · rw [h]; rfl
  · exact incsFrom_head (splitSlash path).tail [] (.inl rfl) q h

/-- Every key bumped by `Stats.process` for a path starting with `'/'`
is a string prefix of that path (the root `"/"` included). -/
theorem bumpKeys_prefixes_of_path :
    ∀ (segs : List Chars) (acc : Chars) (x : Chars),
      x ∈ incsFrom acc segs → x <+: acc ++ '/' :: joinSlash segs := by
  intro segs
  induction segs with
  | nil => intro acc x hx; simp [incsFrom] at hx
  | cons s rest ih =>
    intro acc x hx
    rcases List.mem_cons.mp hx with h | h
    · subst h
      cases rest with
      | nil =>
        show acc ++ '/' :: s <+: acc ++ '/' :: joinSlash [s]
        exact List.prefix_refl _
      | cons s2 rest2 =>
        show acc ++ '/' :: s <+: acc ++ '/' :: joinSlash (s :: s2 :: rest2)
        rw [joinSlash]
        refine ⟨'/' :: joinSlash (s2 :: rest2), ?_⟩
        simp
    · cases rest with
      | nil => simp [incsFrom] at h
      | cons s2 rest2 =>
        have h1 := ih (acc ++ '/' :: s) x h
        rw [joinSlash]
        have : acc ++ '/' :: s ++ '/' :: joinSlash (s2 :: rest2) =
            acc ++ '/' :: (s ++ '/' :: joinSlash (s2 :: rest2)) := by simp
        rw [← this]
        exact h1

theorem bumpKeys_prefixes (path : Chars) (hpath : path.head? = some '/') :
    ∀ q ∈ bumpKeys path, q <+: path := by
  intro q hq
  cases path with
  | nil => simp at hpath
  | cons c tl =>
    have hc : c = '/' := by simpa using hpath
    subst hc
    rcases List.mem_cons.mp hq with h | h
    · rw [h]
      exact ⟨tl, rfl⟩
    · have hsplit : splitSlash ('/' :: tl) = [] :: splitSlash tl := by
        rw [splitSlash]
        simp
      have h1 : q ∈ incsFrom [] (splitSlash tl) := by
        rw [hsplit] at h
        simpa using h
      have h2 := bumpKeys_prefixes_of_path (splitSlash tl) [] q h1
      rw [joinSlash_splitSlash] at h2
      simpa using h2

/-- C7: from a fresh collector, `record(path)` adds one to the counter
of `"/"` and of every incremental segment prefix of the path (each key's
counter grows by exactly its number of occurrences among the bumped
keys), appends one request-log entry and leaves the error log alone —
and for a path starting with `'/'` every bumped key is a string prefix
of the path; `record_error` adds one to the `error` counter, leaves all
other counters alone and appends one error-log entry; counters never
decrease as further calls run; and on any run, for any recorded path,
the counter of each of its prefixes dominates the counter of any of its
extensions. -/
theorem C7_stats_collector :
    (∀ (st : StatsState) (path : Chars),
      (∀ q ∈ bumpKeys path,
        st.statistics q + 1 ≤ (statsProcess path st).statistics q) ∧
      (∀ k, (statsProcess path st).statistics k =
        st.statistics k + (bumpKeys path).count k) ∧
      (statsProcess path st).reqs = st.reqs ++ [path] ∧
      (statsProcess path st).errs = st.errs ∧
      (path.head? = some '/' → ∀ q ∈ bumpKeys path, q <+: path)) ∧
    (∀ (st : StatsState) (path msg : Chars),
      (statsError path msg st).statistics errKey = st.statistics errKey + 1 ∧
      (∀ k, k ≠ errKey → (statsError path msg st).statistics k = st.statistics k) ∧
      (statsError path msg st).errs = st.errs ++ [(path, msg)] ∧
      (statsError path msg st).reqs = st.reqs) ∧
    (∀ (ops more : List StatsOp) (k : Chars),
      (runOps ops).statistics k ≤ (runOps (ops ++ more)).statistics k) ∧
    (∀ (ops : List StatsOp) (P p q : Chars),
      StatsOp.record P ∈ ops → q ∈ bumpKeys P → segPrec p q = true →
      (runOps ops).statistics q ≤ (runOps ops).statistics p) := by
  refine ⟨?_, ?_, ?_, ?_⟩
  · intro st path
    refine ⟨?_, fun k => statsProcess_statistics path st k, rfl, rfl,
      fun h => bumpKeys_prefixes path h⟩
    intro q hq
    rw [statsProcess_statistics]
    have : 1 ≤ (bumpKeys path).count q := List.one_le_count_iff.mpr hq
    omega
  · intro st path msg
    refine ⟨?_, ?_, rfl, rfl⟩
    · show bumpFn errKey st.statistics errKey = st.statistics errKey + 1
      simp [bumpFn]
    · intro k hk
      show bumpFn errKey st.statistics k = st.statistics k
      simp [bumpFn, hk]
  · intro ops more k
    unfold runOps runFrom
    rw [List.foldl_append]
    exact runFrom_mono more _ k
  · intro ops P p q _ hq hpq
    have hqhead : q.head? = some '/' := bumpKeys_head P q hq
    have hp : p ≠ [] := by
      rcases (segPrec_iff p q).mp hpq with h | h | ⟨h, -⟩
      · subst h
        intro he
        rw [he] at hqhead
        simp at hqhead
      · rw [h]; simp
      · exact h
    exact statsDom_runFrom ops statsInit statsDom_init p q hp hqhead hpq

/-- C7 witness: concrete instances discharging each hypothesis of the
collector theorem. -/
theorem C7_stats_collector_witness :
    statsInit.statistics (chars "/a") + 1 ≤
      (statsProcess (chars "/a/b") statsInit).statistics (chars "/a") ∧
    chars "/a" <+: chars "/a/b" ∧
    (statsError (chars "/a") (chars "m") statsInit).statistics (chars "/x") =
      statsInit.statistics (chars "/x") ∧
    (runOps [.record (chars "/a/b"), .record (chars "/a/c")]).statistics (chars "/a/b") ≤
      (runOps [.record (chars "/a/b"), .record (chars "/a/c")]).statistics (chars "/a") :=
  ⟨(C7_stats_collector.1 statsInit (chars "/a/b")).1 (chars "/a") (by decide),
   (C7_stats_collector.1 statsInit (chars "/a/b")).2.2.2.2 (by decide)
      (chars "/a") (by decide),
   (C7_stats_collector.2.1 statsInit (chars "/a") (chars "m")).2.1
      (chars "/x") (by decide),
   C7_stats_collector.2.2.2 [.record (chars "/a/b"), .record (chars "/a/c")]
      (chars "/a/b") (chars "/a") (chars "/a/b") (by decide) (by decide) (by decide)⟩

theorem foldl_filter_map {α γ : Type} (pr : α → Bool) (f : α → γ) :
    ∀ (l : List α) (acc : List γ),
      l.foldl (fun a x => if pr x then a ++ [f x] else a) acc =
        acc ++ (l.filter pr).map f := by
  intro l
  induction l with
  | nil => intro acc; simp
  | cons x rest ih =>
    intro acc
    rw [List.foldl_cons]
    by_cases h : pr x = true
    · rw [if_pos h, ih, List.filter_cons_of_pos h]
      simp
    · rw [if_neg (by simpa using h), ih,
        List.filter_cons_of_neg (by simpa using h)]

/-- C6 counterexample: a stored key without a leading `'/'` is never
scanned — `client.get_prefix("/")` only returns keys under `"/"` — so
`retrieve_wildcard` misses a key that satisfies the claimed
segment-count/glob criterion. -/
theorem C6_wildcard_counterexample :
    retrieve_wildcard [(chars "a", 0)] (chars "a") = none ∧
    wildcardSpec [(chars "a", 0)] (chars "a") = some [0] ∧
    retrieve_wildcard [(chars "a", 0)] (chars "a") ≠
      wildcardSpec [(chars "a", 0)] (chars "a") := by
  refine ⟨?_, ?_, ?_⟩ <;> decide

/-- C6 amended: among the stored keys that begin with `"/"` (those the
root prefix scan returns), `retrieve_wildcard` returns exactly the
values of the keys with the pattern's segment count whose every segment
glob-matches the corresponding pattern segment, and it returns an absent
result rather than an error when no such key exists. -/
theorem C6_wildcard_segmentwise {β : Type} (store : List (Chars × β)) (pattern : Chars) :
    (retrieve_wildcard store pattern =
      (if ((rootScan store).filter (fun kv => wildSegMatch pattern kv.1)).isEmpty
       then none
       else some (((rootScan store).filter
          (fun kv => wildSegMatch pattern kv.1)).map (fun kv => kv.2)))) ∧
    (retrieve_wildcard store pattern = none ↔
      ∀ kv ∈ store, (chars "/").isPrefixOf kv.1 = true →
        wildSegMatch pattern kv.1 = false) := by
  have heq : retrieve_wildcard store pattern =
      (if ((rootScan store).filter (fun kv => wildSegMatch pattern kv.1)).isEmpty
       then none
       else some (((rootScan store).filter
          (fun kv => wildSegMatch pattern kv.1)).map (fun kv => kv.2))) := by
    unfold retrieve_wildcard
    dsimp only
    rw [foldl_filter_map (fun kv => wildSegMatch pattern kv.1) (fun kv => kv.2)
      (rootScan store) []]
    simp only [List.nil_append]
    by_cases h : ((rootScan store).filter (fun kv => wildSegMatch pattern kv.1)) = []
    · rw [h]
      simp
    · have h1 : (((rootScan store).filter (fun kv => wildSegMatch pattern kv.1)).map
          (fun kv => kv.2)).isEmpty = false := by
        simp [List.isEmpty_iff, h]
      have h2 : ((rootScan store).filter
          (fun kv => wildSegMatch pattern kv.1)).isEmpty = false := by
        simp [List.isEmpty_iff, h]
      rw [h1, h2]
  refine ⟨heq, ?_⟩
  rw [heq]
  constructor
  · intro h kv hkv hpre
    by_cases hempty :
        ((rootScan store).filter (fun kv => wildSegMatch pattern kv.1)).isEmpty
    · rw [List.isEmpty_iff] at hempty
      by_contra hmatch
      have hmem : kv ∈ (rootScan store).filter (fun kv => wildSegMatch pattern kv.1) := by
        apply List.mem_filter.mpr
        refine ⟨List.mem_filter.mpr ⟨hkv, hpre⟩, by simpa using hmatch⟩
      rw [hempty] at hmem
      simp at hmem
    · rw [if_neg hempty] at h
      cases h
  · intro h
    rw [if_pos]
    rw [List.isEmpty_iff]
    apply List.filter_eq_nil_iff.mpr
    intro kv hkv
    have hroot := List.mem_filter.mp hkv
    have := h kv hroot.1 hroot.2
    simp [this]

/-! ## Decimal rendering and parsing agree -/

theorem digitVal_digitChar {n : Nat} (h : n < 10) : digitVal (digitChar n) = n := by
  interval_cases n <;> rfl

theorem isDigitC_digitChar (n : Nat) : isDigitC (digitChar n) = true := by
  rcases n with _ | _ | _ | _ | _ | _ | _ | _ | _ | _ | n <;> rfl

theorem natCharsF_stable {n : Nat} :
    ∀ {fuel : Nat}, n < fuel → ∀ acc, natCharsF fuel n acc = natChars n ++ acc := by
  induction n using Nat.strong_induction_on with
  | _ n ih =>
    intro fuel hfuel acc
    match fuel, hfuel with
    | f + 1, hfuel =>
      by_cases h10 : n < 10
      · rw [natCharsF, if_pos h10]
        rw [natChars, natCharsF, if_pos h10]
        rfl
      · have hdiv : n / 10 < n := Nat.div_lt_self (by omega) (by omega)
        rw [natCharsF, if_neg h10]
        rw [ih (n / 10) hdiv (by omega) (digitChar (n % 10) :: acc)]
        have hsplit : natChars n = natChars (n / 10) ++ [digitChar (n % 10)] := by
          conv_lhs => rw [natChars, natCharsF]
          rw [if_neg h10]
          exact ih (n / 10) hdiv (by omega) [digitChar (n % 10)]
        rw [hsplit]
        simp

theorem natChars_split {n : Nat} (h : 10 ≤ n) :
    natChars n = natChars (n / 10) ++ [digitChar (n % 10)] := by
  have hdiv : n / 10 < n := Nat.div_lt_self (by omega) (by omega)
  rw [natChars, natCharsF, if_neg (by omega)]
  exact natCharsF_stable (by omega) [digitChar (n % 10)]

theorem natChars_small {n : Nat} (h : n < 10) : natChars n = [digitChar n] := by
  rw [natChars, natCharsF, if_pos h]

theorem natChars_head_digit (n : Nat) :
    ∃ c t, natChars n = c :: t ∧ isDigitC c = true := by
  induction n using Nat.strong_induction_on with
  | _ n ih =>
    by_cases h10 : n < 10
    · exact ⟨digitChar n, [], natChars_small h10, isDigitC_digitChar n⟩
    · have hdiv : n / 10 < n := Nat.div_lt_self (by omega) (by omega)
      obtain ⟨c, t, hct, hd⟩ := ih (n / 10) hdiv
      refine ⟨c, t ++ [digitChar (n % 10)], ?_, hd⟩
      rw [natChars_split (by omega), hct]
      rfl

theorem natChars_all_digits (n : Nat) :
    ∀ c ∈ natChars n, isDigitC c = true := by
  induction n using Nat.strong_induction_on with
  | _ n ih =>
    intro c hc
    by_cases h10 : n < 10
    · rw [natChars_small h10] at hc
      simp at hc
      rw [hc]
      exact isDigitC_digitChar n
    · have hdiv : n / 10 < n := Nat.div_lt_self (by omega) (by omega)
      rw [natChars_split (by omega)] at hc
      rcases List.mem_append.mp hc with h | h
      · exact ih (n / 10) hdiv c h
      · simp at h
        rw [h]
        exact isDigitC_digitChar (n % 10)

theorem natChars_val (n : Nat) :
    ∀ a, List.foldl (fun x c => x * 10 + digitVal c) a (natChars n) =
      a * 10 ^ (natChars n).length + n := by
  induction n using Nat.strong_induction_on with
  | _ n ih =>
    intro a
    by_cases h10 : n < 10
    · rw [natChars_small h10]
      simp [digitVal_digitChar h10]
    · have hdiv : n / 10 < n := Nat.div_lt_self (by omega) (by omega)
      rw [natChars_split (by omega), List.foldl_append, ih (n / 10) hdiv a]
      simp only [List.foldl_cons, List.foldl_nil, List.length_append, List.length_cons,
        List.length_nil]
      rw [digitVal_digitChar (Nat.mod_lt n (by omega))]
      have : 10 ^ ((natChars (n / 10)).length + (0 + 1)) =
          10 ^ (natChars (n / 10)).length * 10 := by ring
      rw [this]
      have hmod : n / 10 * 10 + n % 10 = n := by omega
      ring_nf
      omega

theorem takeWhile_digits_append {l₁ l₂ : Chars}
    (h1 : ∀ c ∈ l₁, isDigitC c = true)
    (h2 : ∀ c, l₂.head? = some c → isDigitC c = false) :
    (l₁ ++ l₂).takeWhile isDigitC = l₁ ∧ (l₁ ++ l₂).dropWhile isDigitC = l₂ := by
  induction l₁ with
  | nil =>
    simp only [List.nil_append]
    cases l₂ with
    | nil => simp
    | cons c rest =>
      have := h2 c rfl
      constructor
      · simp [List.takeWhile_cons, this]
      · simp [List.dropWhile_cons, this]
  | cons c rest ih =>
    have hc : isDigitC c = true := h1 c (List.mem_cons_self _ _)
    have hrest : ∀ x ∈ rest, isDigitC x = true :=
      fun x hx => h1 x (List.mem_cons_of_mem _ hx)
    obtain ⟨ht, hd⟩ := ih hrest
    constructor
    · simp [List.takeWhile_cons, hc, ht]
    · simp [List.dropWhile_cons, hc, hd]

theorem parseNat_natChars (n : Nat) (rest : Chars)
    (hrest : ∀ c, rest.head? = some c → isDigitC c = false) :
    parseNat (natChars n ++ rest) = some (n, rest) := by
  obtain ⟨ht, hd⟩ := takeWhile_digits_append (natChars_all_digits n) hrest
  obtain ⟨c, t, hct, -⟩ := natChars_head_digit n
  have hne : (natChars n).isEmpty = false := by rw [hct]; rfl
  have hval : digitsVal (natChars n) = n := by
    have h0 := natChars_val n 0
    simpa [digitsVal] using h0
  unfold parseNat
  dsimp only
  rw [ht, hd, hne, hval]
  simp

/-! ## String escaping and parsing agree -/

theorem skipWs_not_ws (c : Char) (h : isJsonWs c = false) (r : Chars) :
    skipWs (c :: r) = c :: r := by
  rw [skipWs, List.dropWhile_cons, h]
  simp

theorem hexVal_hexDigitChar {x : Nat} (h : x < 16) :
    hexVal (hexDigitChar x) = some x := by
  interval_cases x <;> decide

theorem escBody_parse :
    ∀ (s rest : Chars), parseStrBody (escBody s ++ '"' :: rest) = some (s, rest) := by
  intro s
  induction s with
  | nil =>
    intro rest
    rw [escBody, List.nil_append, parseStrBody, if_pos rfl]
  | cons c s' ih =>
    intro rest
    rw [escBody, List.append_assoc]
    by_cases h1 : c = '"'
    · subst h1
      show parseStrBody ('\\' :: '"' :: (escBody s' ++ '"' :: rest)) = _
      have hred : parseStrBody ('\\' :: '"' :: (escBody s' ++ '"' :: rest)) =
          (parseStrBody (escBody s' ++ '"' :: rest)).map
            (fun pr => ('"' :: pr.1, pr.2)) := rfl
      rw [hred, ih rest]
      rfl
    · by_cases h2 : c = '\\'
      · subst h2
        show parseStrBody ('\\' :: '\\' :: (escBody s' ++ '"' :: rest)) = _
        have hred : parseStrBody ('\\' :: '\\' :: (escBody s' ++ '"' :: rest)) =
            (parseStrBody (escBody s' ++ '"' :: rest)).map
              (fun pr => ('\\' :: pr.1, pr.2)) := rfl
        rw [hred, ih rest]
        rfl
      · by_cases h3 : c = '\n'
        · subst h3
          show parseStrBody ('\\' :: 'n' :: (escBody s' ++ '"' :: rest)) = _
          have hred : parseStrBody ('\\' :: 'n' :: (escBody s' ++ '"' :: rest)) =
              (parseStrBody (escBody s' ++ '"' :: rest)).map
                (fun pr => ('\n' :: pr.1, pr.2)) := rfl
          rw [hred, ih rest]
          rfl
        · by_cases h4 : c = '\t'
          · subst h4
            show parseStrBody ('\\' :: 't' :: (escBody s' ++ '"' :: rest)) = _
            have hred : parseStrBody ('\\' :: 't' :: (escBody s' ++ '"' :: rest)) =
                (parseStrBody (escBody s' ++ '"' :: rest)).map
                  (fun pr => ('\t' :: pr.1, pr.2)) := rfl
            rw [hred, ih rest]
            rfl
          · by_cases h5 : c = '\r'
            · subst h5
              show parseStrBody ('\\' :: 'r' :: (escBody s' ++ '"' :: rest)) = _
              have hred : parseStrBody ('\\' :: 'r' :: (escBody s' ++ '"' :: rest)) =
                  (parseStrBody (escBody s' ++ '"' :: rest)).map
                    (fun pr => ('\r' :: pr.1, pr.2)) := rfl
              rw [hred, ih rest]
              rfl
            · by_cases h6 : c.toNat < 32
              · have hesc : escChar c =
                    ['\\', 'u', '0', '0', hexDigitChar (c.toNat / 16),
                     hexDigitChar (c.toNat % 16)] := by
                  rw [escChar, if_neg h1, if_neg h2, if_neg h3, if_neg h4, if_neg h5,
                    if_pos h6]
                rw [hesc]
                show parseStrBody ('\\' :: 'u' :: '0' :: '0' :: hexDigitChar (c.toNat / 16) ::
                    hexDigitChar (c.toNat % 16) :: (escBody s' ++ '"' :: rest)) = _
                have hred : parseStrBody ('\\' :: 'u' :: '0' :: '0' ::
                    hexDigitChar (c.toNat / 16) :: hexDigitChar (c.toNat % 16) ::
                    (escBody s' ++ '"' :: rest)) =
                    (match hexVal '0', hexVal '0', hexVal (hexDigitChar (c.toNat / 16)),
                        hexVal (hexDigitChar (c.toNat % 16)) with
                     | some ha, some hb, some hc2, some hd =>
                       (parseStrBody (escBody s' ++ '"' :: rest)).map
                         (fun pr =>
                           (Char.ofNat (((ha * 16 + hb) * 16 + hc2) * 16 + hd) :: pr.1,
                            pr.2))
                     | _, _, _, _ => none) := rfl
                rw [hred]
                rw [show hexVal '0' = some 0 from rfl]
                rw [hexVal_hexDigitChar (show c.toNat / 16 < 16 by omega)]
                rw [hexVal_hexDigitChar (show c.toNat % 16 < 16 by omega)]
                show (parseStrBody (escBody s' ++ '"' :: rest)).map
                    (fun pr =>
                      (Char.ofNat (((0 * 16 + 0) * 16 + c.toNat / 16) * 16 + c.toNat % 16)
                        :: pr.1, pr.2)) = _
                rw [ih rest]
                have hval : ((0 * 16 + 0) * 16 + c.toNat / 16) * 16 + c.toNat % 16 =
                    c.toNat := by omega
                rw [hval, Char.ofNat_toNat]
                rfl
              · have hesc : escChar c = [c] := by
                  rw [escChar, if_neg h1, if_neg h2, if_neg h3, if_neg h4, if_neg h5,
                    if_neg h6]
                rw [hesc]
                show parseStrBody (c :: (escBody s' ++ '"' :: rest)) = _
                rw [parseStrBody, if_neg h1, if_neg h2, ih rest]
                rfl

/-! ## Heads of rendered values -/

theorem isDigitC_toNat {c : Char} (h : isDigitC c = true) :
    48 ≤ c.toNat ∧ c.toNat ≤ 57 := by
  simpa [isDigitC] using h

theorem digit_head_good {c : Char} (h : isDigitC c = true) :
    isJsonWs c = false ∧ c ≠ ']' ∧ c ≠ '}' ∧ c ≠ ',' := by
  obtain ⟨h1, h2⟩ := isDigitC_toNat h
  refine ⟨?_, ?_, ?_, ?_⟩
  · rw [isJsonWs]
    have hsp : ¬(c = ' ') := by intro he; rw [he] at h1 h2; revert h1 h2; decide
    have hta : ¬(c = '\t') := by intro he; rw [he] at h1 h2; revert h1 h2; decide
    have hnl : ¬(c = '\n') := by intro he; rw [he] at h1 h2; revert h1 h2; decide
    have hcr : ¬(c = '\r') := by intro he; rw [he] at h1 h2; revert h1 h2; decide
    simp [hsp, hta, hnl, hcr]
  · intro he; rw [he] at h1 h2; revert h1 h2; decide
  · intro he; rw [he] at h1 h2; revert h1 h2; decide
  · intro he; rw [he] at h1 h2; revert h1 h2; decide

theorem intChars_head (n : Int) :
    ∃ c t, intChars n = c :: t ∧ isJsonWs c = false ∧ c ≠ ']' ∧ c ≠ '}' ∧ c ≠ ',' := by
  rw [intChars]
  by_cases h : n < 0
  · rw [if_pos h]
    exact ⟨'-', _, rfl, by decide, by decide, by decide, by decide⟩
  · rw [if_neg h]
    obtain ⟨c, t, hct, hd⟩ := natChars_head_digit n.toNat
    obtain ⟨g1, g2, g3, g4⟩ := digit_head_good hd
    exact ⟨c, t, hct, g1, g2, g3, g4⟩

theorem pyDumps_head (v : PValue) :
    ∃ c t, pyDumps v = c :: t ∧ isJsonWs c = false ∧ c ≠ ']' ∧ c ≠ '}' ∧ c ≠ ',' := by
  cases v with
  | pnull => exact ⟨'n', _, rfl, by decide, by decide, by decide, by decide⟩
  | pbool b =>
    cases b with
    | true => exact ⟨'t', _, rfl, by decide, by decide, by decide, by decide⟩
    | false => exact ⟨'f', _, rfl, by decide, by decide, by decide, by decide⟩
  | pint n =>
    obtain ⟨c, t, hct, hgood⟩ := intChars_head n
    exact ⟨c, t, by rw [pyDumps, hct], hgood⟩
  | pstr s => exact ⟨'"', _, rfl, by decide, by decide, by decide, by decide⟩
  | plist xs => exact ⟨'[', _, rfl, by decide, by decide, by decide, by decide⟩
  | pdict fs => exact ⟨'{', _, rfl, by decide, by decide, by decide, by decide⟩

mutual
theorem need_le_len : ∀ v : PValue, need v ≤ (pyDumps v).length
  | .pnull => by rw [need, pyDumps]; simp
  | .pbool b => by
    cases b with
    | true => rw [need, pyDumps]; simp
    | false => rw [need, pyDumps]; simp
  | .pint n => by
    obtain ⟨c, t, hct, -⟩ := intChars_head n
    rw [need, pyDumps, hct]
    simp
  | .pstr s => by rw [need, pyDumps, renderStr]; simp
  | .plist xs => by
    rw [need, pyDumps]
    cases xs with
    | nil => simp [needElems]
    | cons x rest =>
      have h := needElems_le_len (x :: rest) (by simp)
      simp only [List.length_cons, List.length_append, List.length_cons, List.length_nil]
      omega
  | .pdict fs => by
    rw [need, pyDumps]
    cases fs with
    | nil => simp [needFields]
    | cons e rest =>
      have h := needFields_le_len (e :: rest) (by simp)
      simp only [List.length_cons, List.length_append, List.length_cons, List.length_nil]
      omega

theorem needElems_le_len : ∀ xs : List PValue, xs ≠ [] →
    needElems xs ≤ 1 + (renderList xs).length
  | [x], _ => by
    have h := need_le_len x
    rw [needElems, needElems, renderList]
    omega
  | x :: y :: rest, _ => by
    have h1 := need_le_len x
    have h2 := needElems_le_len (y :: rest) (by simp)
    rw [needElems, renderList]
    simp only [List.length_append, List.length_cons]
    omega

theorem needFields_le_len : ∀ fs : List (PKey × PValue), fs ≠ [] →
    needFields fs ≤ 1 + (renderDict fs).length
  | [(k, v)], _ => by
    have h := need_le_len v
    rw [needFields, needFields, renderDict]
    simp only [List.length_append, List.length_cons]
    omega
  | (k, v) :: e :: rest, _ => by
    have h1 := need_le_len v
    have h2 := needFields_le_len (e :: rest) (by simp)
    rw [needFields, renderDict]
    simp only [List.length_append, List.length_cons]
    omega
end

/-- When the input starts with a digit, `parseValueF` takes its number
branch. -/
theorem parseValueF_digit (f : Nat) (s : Chars) (c : Char) (X : Chars)
    (hskip : skipWs s = c :: X) (hd : isDigitC c = true) :
    parseValueF (f + 1) s =
      (parseNat (c :: X)).map (fun pr => (.pint (pr.1 : Int), pr.2)) := by
  obtain ⟨hlo, hhi⟩ := isDigitC_toNat hd
  rw [parseValueF, hskip]
  split
  · rename_i heq
    simp only [List.cons.injEq] at heq
    obtain ⟨hc, -⟩ := heq
    first
      | (rw [hc] at hhi; exact absurd hhi (by decide))
      | (rw [← hc] at hhi; exact absurd hhi (by decide))
      | (rw [hc] at hlo; exact absurd hlo (by decide))
      | (rw [← hc] at hlo; exact absurd hlo (by decide))
  · rename_i heq
    simp only [List.cons.injEq] at heq
    obtain ⟨hc, -⟩ := heq
    first
      | (rw [hc] at hhi; exact absurd hhi (by decide))
      | (rw [← hc] at hhi; exact absurd hhi (by decide))
      | (rw [hc] at hlo; exact absurd hlo (by decide))
      | (rw [← hc] at hlo; exact absurd hlo (by decide))
  · rename_i heq
    simp only [List.cons.injEq] at heq
    obtain ⟨hc, -⟩ := heq
    first
      | (rw [hc] at hhi; exact absurd hhi (by decide))
      | (rw [← hc] at hhi; exact absurd hhi (by decide))
      | (rw [hc] at hlo; exact absurd hlo (by decide))
      | (rw [← hc] at hlo; exact absurd hlo (by decide))
  · rename_i heq
    simp only [List.cons.injEq] at heq
    obtain ⟨hc, -⟩ := heq
    first
      | (rw [hc] at hhi; exact absurd hhi (by decide))
      | (rw [← hc] at hhi; exact absurd hhi (by decide))
      | (rw [hc] at hlo; exact absurd hlo (by decide))
      | (rw [← hc] at hlo; exact absurd hlo (by decide))
  · rename_i heq
    simp only [List.cons.injEq] at heq
    obtain ⟨hc, -⟩ := heq
    first
      | (rw [hc] at hhi; exact absurd hhi (by decide))
      | (rw [← hc] at hhi; exact absurd hhi (by decide))
      | (rw [hc] at hlo; exact absurd hlo (by decide))
      | (rw [← hc] at hlo; exact absurd hlo (by decide))
  · rename_i heq
    simp only [List.cons.injEq] at heq
    obtain ⟨hc, -⟩ := heq
    first
      | (rw [hc] at hhi; exact absurd hhi (by decide))
      | (rw [← hc] at hhi; exact absurd hhi (by decide))
      | (rw [hc] at hlo; exact absurd hlo (by decide))
      | (rw [← hc] at hlo; exact absurd hlo (by decide))
  · rename_i heq
    simp only [List.cons.injEq] at heq
    obtain ⟨hc, -⟩ := heq
    first
      | (rw [hc] at hhi; exact absurd hhi (by decide))
      | (rw [← hc] at hhi; exact absurd hhi (by decide))
      | (rw [hc] at hlo; exact absurd hlo (by decide))
      | (rw [← hc] at hlo; exact absurd hlo (by decide))
  · rename_i c1 rest1 heq
    simp only [List.cons.injEq] at heq
    obtain ⟨hc, hX⟩ := heq
    subst hc
    subst hX
    rw [if_pos hd]
  · rename_i heq
    simp at heq

theorem skipWs_cons_space (X : Chars) : skipWs (' ' :: X) = skipWs X := by
  rw [skipWs, List.dropWhile_cons]
  rw [show isJsonWs ' ' = true from rfl]
  rfl

theorem skipWs_render_append (v : PValue) (R : Chars) :
    skipWs (pyDumps v ++ R) = pyDumps v ++ R := by
  obtain ⟨c, t, hct, hws, -, -, -⟩ := pyDumps_head v
  rw [hct, List.cons_append, skipWs_not_ws c hws]

theorem nondigit_head {c : Char} (h : isDigitC c = false) (rest : Chars) :
    ∀ c2, ((c :: rest).head?) = some c2 → isDigitC c2 = false := by
  intro c2 hc2
  rw [List.head?_cons, Option.some.injEq] at hc2
  rw [← hc2]
  exact h

theorem renderList_decomp (x : PValue) (xr : List PValue) :
    ∃ R, renderList (x :: xr) = pyDumps x ++ R := by
  cases xr with
  | nil => exact ⟨[], by rw [renderList]; simp⟩
  | cons y yr => exact ⟨',' :: ' ' :: renderList (y :: yr), rfl⟩

theorem renderKey_head (k : PKey) : ∃ t, renderKey k = '"' :: t := by
  cases k with
  | kstr s => exact ⟨escBody s ++ ['"'], rfl⟩
  | kint n => exact ⟨intChars n ++ ['"'], rfl⟩

theorem renderDict_decomp (e : PKey × PValue) (fr : List (PKey × PValue)) :
    ∃ t, renderDict (e :: fr) = '"' :: t := by
  obtain ⟨k, v⟩ := e
  obtain ⟨t, ht⟩ := renderKey_head k
  cases fr with
  | nil =>
    refine ⟨t ++ ':' :: ' ' :: pyDumps v, ?_⟩
    rw [renderDict, ht]
    rfl
  | cons e2 fr2 =>
    refine ⟨t ++ ':' :: ' ' :: pyDumps v ++ ',' :: ' ' :: renderDict (e2 :: fr2), ?_⟩
    rw [renderDict, ht]
    rfl

mutual
/-- Parsing inverts rendering: for any canonical value, any fuel of at
least `need v`, and any continuation that does not start with a digit,
the parser consumes exactly the rendered value. -/
theorem parse_render :
    ∀ (v : PValue), canonical v = true →
      ∀ (s rest : Chars) (fuel : Nat), skipWs s = pyDumps v ++ rest →
        (∀ c, rest.head? = some c → isDigitC c = false) →
        need v ≤ fuel → parseValueF fuel s = some (v, rest)
  | .pnull, _, s, rest, fuel => by
    intro hskip hrest hfuel
    cases fuel with
    | zero => simp only [need] at hfuel; omega
    | succ f =>
      rw [parseValueF, hskip]
      rfl
  | .pbool true, _, s, rest, fuel => by
    intro hskip hrest hfuel
    cases fuel with
    | zero => simp only [need] at hfuel; omega
    | succ f =>
      rw [parseValueF, hskip]
      rfl
  | .pbool false, _, s, rest, fuel => by
    intro hskip hrest hfuel
    cases fuel with
    | zero => simp only [need] at hfuel; omega
    | succ f =>
      rw [parseValueF, hskip]
      rfl
  | .pint n, _, s, rest, fuel => by
    intro hskip hrest hfuel
    cases fuel with
    | zero => simp only [need] at hfuel; omega
    | succ f =>
      by_cases hneg : n < 0
      · have hn : pyDumps (.pint n) = '-' :: natChars (-n).toNat := by
          rw [pyDumps, intChars, if_pos hneg]
        rw [parseValueF, hskip, hn, List.cons_append]
        show (parseNat (natChars (-n).toNat ++ rest)).map
            (fun pr => (PValue.pint (-(pr.1 : Int)), pr.2)) = some (.pint n, rest)
        rw [parseNat_natChars _ rest hrest]
        have hval : -(((-n).toNat : Nat) : Int) = n := by omega
        simp only [Option.map_some', hval]
      · have hn : pyDumps (.pint n) = natChars n.toNat := by
          rw [pyDumps, intChars, if_neg hneg]
        obtain ⟨c, t, hct, hd⟩ := natChars_head_digit n.toNat
        have hskip2 : skipWs s = c :: (t ++ rest) := by
          rw [hskip, hn, hct]
          rfl
        rw [parseValueF_digit f s c (t ++ rest) hskip2 hd]
        rw [show c :: (t ++ rest) = natChars n.toNat ++ rest by rw [hct]; rfl]
        rw [parseNat_natChars _ rest hrest]
        have hval : ((n.toNat : Nat) : Int) = n := by omega
        simp only [Option.map_some', hval]
  | .pstr str, _, s, rest, fuel => by
    intro hskip hrest hfuel
    cases fuel with
    | zero => simp only [need] at hfuel; omega
    | succ f =>
      have hs : pyDumps (.pstr str) ++ rest = '"' :: (escBody str ++ '"' :: rest) := by
        rw [pyDumps, renderStr]
        simp
      rw [parseValueF, hskip, hs]
      show (parseStrBody (escBody str ++ '"' :: rest)).map
          (fun pr => (PValue.pstr pr.1, pr.2)) = some (.pstr str, rest)
      rw [escBody_parse str rest]
      rfl
  | .plist [], _, s, rest, fuel => by
    intro hskip hrest hfuel
    cases fuel with
    | zero => simp only [need] at hfuel; omega
    | succ f =>
      have hs : pyDumps (.plist []) ++ rest = '[' :: (']' :: rest) := by
        rw [pyDumps, renderList]
        rfl
      rw [parseValueF, hskip, hs]
      show (match skipWs (']' :: rest) with
            | ']' :: r2 => some (PValue.plist [], r2)
            | r2 => parseElemsF f r2 []) = some (.plist [], rest)
      rw [skipWs_not_ws ']' (by decide)]
      rfl
  | .plist (x :: xr), hc, s, rest, fuel => by
    intro hskip hrest hfuel
    cases fuel with
    | zero => simp only [need] at hfuel; omega
    | succ f =>
      have hs : pyDumps (.plist (x :: xr)) ++ rest =
          '[' :: (renderList (x :: xr) ++ ']' :: rest) := by
        rw [pyDumps]
        simp
      rw [parseValueF, hskip, hs]
      show (match skipWs (renderList (x :: xr) ++ ']' :: rest) with
            | ']' :: r2 => some (PValue.plist [], r2)
            | r2 => parseElemsF f r2 []) = some (.plist (x :: xr), rest)
      obtain ⟨R, hR⟩ := renderList_decomp x xr
      have hsw : skipWs (renderList (x :: xr) ++ ']' :: rest) =
          renderList (x :: xr) ++ ']' :: rest := by
        rw [hR, List.append_assoc]
        rw [skipWs_render_append x (R ++ ']' :: rest)]
      rw [hsw]
      obtain ⟨c, t, hct, -, hrb, -, -⟩ := pyDumps_head x
      have hform : renderList (x :: xr) ++ ']' :: rest =
          c :: (t ++ R ++ ']' :: rest) := by
        rw [hR, hct]
        simp
      rw [hform]
      split
      · rename_i r2 heq
        simp only [List.cons.injEq] at heq
        first
          | exact absurd heq.1 hrb
          | exact absurd heq.1.symm hrb
      · rename_i heq
        have hcanonx : canonicalList (x :: xr) = true := by
          simpa [canonical] using hc
        have hneed : needElems (x :: xr) ≤ f := by
          simp only [need] at hfuel
          omega
        have happly := parse_render_elems (x :: xr) (by simp) hcanonx []
          (c :: (t ++ R ++ ']' :: rest)) rest f ?_ hneed
        · simpa using happly
        · rw [show c :: (t ++ R ++ ']' :: rest) = renderList (x :: xr) ++ ']' :: rest by
            rw [hform]]
          rw [hR, List.append_assoc, skipWs_render_append x (R ++ ']' :: rest)]
  | .pdict [], _, s, rest, fuel => by
    intro hskip hrest hfuel
    cases fuel with
    | zero => simp only [need] at hfuel; omega
    | succ f =>
      have hs : pyDumps (.pdict []) ++ rest = '{' :: ('}' :: rest) := by
        rw [pyDumps, renderDict]
        rfl
      rw [parseValueF, hskip, hs]
      show (match skipWs ('}' :: rest) with
            | '}' :: r2 => some (PValue.pdict [], r2)
            | r2 => parseFieldsF f r2 []) = some (.pdict [], rest)
      rw [skipWs_not_ws '}' (by decide)]
      rfl
  | .pdict (e :: fr), hc, s, rest, fuel => by
    intro hskip hrest hfuel
    cases fuel with
    | zero => simp only [need] at hfuel; omega
    | succ f =>
      have hs : pyDumps (.pdict (e :: fr)) ++ rest =
          '{' :: (renderDict (e :: fr) ++ '}' :: rest) := by
        rw [pyDumps]
        simp
      rw [parseValueF, hskip, hs]
      show (match skipWs (renderDict (e :: fr) ++ '}' :: rest) with
            | '}' :: r2 => some (PValue.pdict [], r2)
            | r2 => parseFieldsF f r2 []) = some (.pdict (e :: fr), rest)
      obtain ⟨t, ht⟩ := renderDict_decomp e fr
      have hform : renderDict (e :: fr) ++ '}' :: rest = '"' :: (t ++ '}' :: rest) := by
        rw [ht]
        rfl
      rw [hform, skipWs_not_ws '"' (by decide)]
      have hcanonf : canonicalDict (e :: fr) = true := by
        simpa [canonical] using hc
      have hneed : needFields (e :: fr) ≤ f := by
        simp only [need] at hfuel
        omega
      have happly := parse_render_fields (e :: fr) (by simp) hcanonf []
        ('"' :: (t ++ '}' :: rest)) rest f ?_ hneed
      · simpa using happly
      · rw [show ('"' :: (t ++ '}' :: rest) : Chars) =
            renderDict (e :: fr) ++ '}' :: rest by rw [hform]]
        rw [hform]
        exact skipWs_not_ws '"' (by decide) _

/-- Parsing the rendered elements of a non-empty list. -/
theorem parse_render_elems :
    ∀ (xs : List PValue), xs ≠ [] → canonicalList xs = true →
      ∀ (acc : List PValue) (s rest : Chars) (fuel : Nat),
        skipWs s = renderList xs ++ ']' :: rest → needElems xs ≤ fuel →
        parseElemsF fuel s acc = some (.plist (acc ++ xs), rest)
  | [x], _, hcanon, acc, s, rest, fuel => by
    intro hskip hfuel
    cases fuel with
    | zero => simp only [needElems] at hfuel; omega
    | succ f =>
      have hcx : canonical x = true := by
        simpa [canonicalList] using hcanon
      have hneed : need x ≤ f := by
        simp only [needElems] at hfuel
        omega
      have hx := parse_render x hcx s (']' :: rest) f
        (by rw [hskip, renderList]) (nondigit_head (by decide) rest) hneed
      rw [parseElemsF, hx]
      show (match skipWs (']' :: rest) with
            | ',' :: r2 => parseElemsF f r2 (acc ++ [x])
            | ']' :: r2 => some (PValue.plist (acc ++ [x]), r2)
            | _ => none) = some (.plist (acc ++ [x]), rest)
      rw [skipWs_not_ws ']' (by decide)]
      rfl
  | x :: y :: yr, _, hcanon, acc, s, rest, fuel => by
    intro hskip hfuel
    cases fuel with
    | zero => simp only [needElems] at hfuel; omega
    | succ f =>
      have hcx : canonical x = true := by
        simp [canonicalList] at hcanon
        exact hcanon.1
      have hcyr : canonicalList (y :: yr) = true := by
        simp [canonicalList] at hcanon
        simp [canonicalList, hcanon.2.1, hcanon.2.2]
      have hneedx : need x ≤ f := by
        simp only [needElems] at hfuel
        omega
      have hneedyr : needElems (y :: yr) ≤ f := by
        simp only [needElems] at hfuel ⊢
        omega
      have hsplit : renderList (x :: y :: yr) ++ ']' :: rest =
          pyDumps x ++ (',' :: ' ' :: (renderList (y :: yr) ++ ']' :: rest)) := by
        rw [renderList]
        simp
      have hx := parse_render x hcx s
        (',' :: ' ' :: (renderList (y :: yr) ++ ']' :: rest)) f
        (by rw [hskip, hsplit]) (nondigit_head (by decide) _) hneedx
      rw [parseElemsF, hx]
      show (match skipWs (',' :: ' ' :: (renderList (y :: yr) ++ ']' :: rest)) with
            | ',' :: r2 => parseElemsF f r2 (acc ++ [x])
            | ']' :: r2 => some (PValue.plist (acc ++ [x]), r2)
            | _ => none) = some (.plist (acc ++ (x :: y :: yr)), rest)
      rw [skipWs_not_ws ',' (by decide)]
      show parseElemsF f (' ' :: (renderList (y :: yr) ++ ']' :: rest)) (acc ++ [x]) =
        some (.plist (acc ++ (x :: y :: yr)), rest)
      obtain ⟨R, hR⟩ := renderList_decomp y yr
      have hs2 : skipWs (' ' :: (renderList (y :: yr) ++ ']' :: rest)) =
          renderList (y :: yr) ++ ']' :: rest := by
        rw [skipWs_cons_space, hR, List.append_assoc,
          skipWs_render_append y (R ++ ']' :: rest), ← List.append_assoc]
      have hrec := parse_render_elems (y :: yr) (by simp) hcyr (acc ++ [x])
        (' ' :: (renderList (y :: yr) ++ ']' :: rest)) rest f hs2 hneedyr
      rw [hrec]
      simp

/-- Parsing the rendered entries of a non-empty object. -/
theorem parse_render_fields :
    ∀ (fs : List (PKey × PValue)), fs ≠ [] → canonicalDict fs = true →
      ∀ (acc : List (PKey × PValue)) (s rest : Chars) (fuel : Nat),
        skipWs s = renderDict fs ++ '}' :: rest → needFields fs ≤ fuel →
        parseFieldsF fuel s acc = some (.pdict (acc ++ fs), rest)
  | [(k, v)], _, hcanon, acc, s, rest, fuel => by
    intro hskip hfuel
    cases fuel with
    | zero => simp only [needFields] at hfuel; omega
    | succ f =>
      match k, hcanon with
      | .kstr ks, hcanon =>
        have hcv : canonical v = true := by
          simpa [canonicalDict] using hcanon
        have hneed : need v ≤ f := by
          simp only [needFields] at hfuel
          omega
        have hform : renderDict [(.kstr ks, v)] ++ '}' :: rest =
            '"' :: (escBody ks ++ '"' :: (':' :: ' ' :: (pyDumps v ++ '}' :: rest))) := by
          rw [renderDict, renderKey, renderStr]
          simp
        rw [parseFieldsF, hskip, hform]
        show (match parseStrBody (escBody ks ++ '"' ::
            (':' :: ' ' :: (pyDumps v ++ '}' :: rest))) with
          | none => none
          | some (k2, r) =>
            match skipWs r with
            | ':' :: r2 =>
              match parseValueF f r2 with
              | none => none
              | some (v2, r3) =>
                match skipWs r3 with
                | ',' :: r4 => parseFieldsF f r4 (acc ++ [(.kstr k2, v2)])
                | '}' :: r4 => some (.pdict (acc ++ [(.kstr k2, v2)]), r4)
                | _ => none
            | _ => none) = some (.pdict (acc ++ [(.kstr ks, v)]), rest)
        rw [escBody_parse ks (':' :: ' ' :: (pyDumps v ++ '}' :: rest))]
        show (match skipWs (':' :: ' ' :: (pyDumps v ++ '}' :: rest)) with
              | ':' :: r2 =>
                match parseValueF f r2 with
                | none => none
                | some (v2, r3) =>
                  match skipWs r3 with
                  | ',' :: r4 => parseFieldsF f r4 (acc ++ [(.kstr ks, v2)])
                  | '}' :: r4 => some (.pdict (acc ++ [(.kstr ks, v2)]), r4)
                  | _ => none
              | _ => none) = some (.pdict (acc ++ [(.kstr ks, v)]), rest)
        rw [skipWs_not_ws ':' (by decide)]
        have hv := parse_render v hcv (' ' :: (pyDumps v ++ '}' :: rest)) ('}' :: rest) f
          (by rw [skipWs_cons_space, skipWs_render_append])
          (nondigit_head (by decide) rest) hneed
        show (match parseValueF f (' ' :: (pyDumps v ++ '}' :: rest)) with
              | none => none
              | some (v2, r3) =>
                match skipWs r3 with
                | ',' :: r4 => parseFieldsF f r4 (acc ++ [(.kstr ks, v2)])
                | '}' :: r4 => some (.pdict (acc ++ [(.kstr ks, v2)]), r4)
                | _ => none) = some (.pdict (acc ++ [(.kstr ks, v)]), rest)
        rw [hv]
        show (match skipWs ('}' :: rest) with
              | ',' :: r4 => parseFieldsF f r4 (acc ++ [(.kstr ks, v)])
              | '}' :: r4 => some (.pdict (acc ++ [(.kstr ks, v)]), r4)
              | _ => none) = some (.pdict (acc ++ [(.kstr ks, v)]), rest)
        rw [skipWs_not_ws '}' (by decide)]
        rfl
  | (k, v) :: e2 :: fr2, _, hcanon, acc, s, rest, fuel => by
    intro hskip hfuel
    cases fuel with
    | zero => simp only [needFields] at hfuel; omega
    | succ f =>
      match k, hcanon with
      | .kstr ks, hcanon =>
        have hcv : canonical v = true := by
          simp [canonicalDict] at hcanon
          exact hcanon.1
        have hcfr : canonicalDict (e2 :: fr2) = true := by
          simp [canonicalDict] at hcanon
          obtain ⟨-, h2⟩ := hcanon
          simpa [canonicalDict] using h2
        have hneedv : need v ≤ f := by
          simp only [needFields] at hfuel
          omega
        have hneedfr : needFields (e2 :: fr2) ≤ f := by
          obtain ⟨k2, v2⟩ := e2
          simp only [needFields] at hfuel ⊢
          omega
        have hform : renderDict ((.kstr ks, v) :: e2 :: fr2) ++ '}' :: rest =
            '"' :: (escBody ks ++ '"' :: (':' :: ' ' :: (pyDumps v ++
              ',' :: ' ' :: (renderDict (e2 :: fr2) ++ '}' :: rest)))) := by
          rw [renderDict, renderKey, renderStr]
          simp
        rw [parseFieldsF, hskip, hform]
        show (match parseStrBody (escBody ks ++ '"' :: (':' :: ' ' :: (pyDumps v ++
            ',' :: ' ' :: (renderDict (e2 :: fr2) ++ '}' :: rest)))) with
          | none => none
          | some (k2, r) =>
            match skipWs r with
            | ':' :: r2 =>
              match parseValueF f r2 with
              | none => none
              | some (v2, r3) =>
                match skipWs r3 with
                | ',' :: r4 => parseFieldsF f r4 (acc ++ [(.kstr k2, v2)])
                | '}' :: r4 => some (.pdict (acc ++ [(.kstr k2, v2)]), r4)
                | _ => none
            | _ => none) =
          some (.pdict (acc ++ (.kstr ks, v) :: e2 :: fr2), rest)
        rw [escBody_parse ks (':' :: ' ' :: (pyDumps v ++
          ',' :: ' ' :: (renderDict (e2 :: fr2) ++ '}' :: rest)))]
        show (match skipWs (':' :: ' ' :: (pyDumps v ++
            ',' :: ' ' :: (renderDict (e2 :: fr2) ++ '}' :: rest))) with
          | ':' :: r2 =>
            match parseValueF f r2 with
            | none => none
            | some (v2, r3) =>
              match skipWs r3 with
              | ',' :: r4 => parseFieldsF f r4 (acc ++ [(.kstr ks, v2)])
              | '}' :: r4 => some (.pdict (acc ++ [(.kstr ks, v2)]), r4)
              | _ => none
          | _ => none) =
          some (.pdict (acc ++ (.kstr ks, v) :: e2 :: fr2), rest)
        rw [skipWs_not_ws ':' (by decide)]
        have hv := parse_render v hcv
          (' ' :: (pyDumps v ++ ',' :: ' ' :: (renderDict (e2 :: fr2) ++ '}' :: rest)))
          (',' :: ' ' :: (renderDict (e2 :: fr2) ++ '}' :: rest)) f
          (by rw [skipWs_cons_space, skipWs_render_append])
          (nondigit_head (by decide) _) hneedv
        show (match parseValueF f (' ' :: (pyDumps v ++
            ',' :: ' ' :: (renderDict (e2 :: fr2) ++ '}' :: rest))) with
          | none => none
          | some (v2, r3) =>
            match skipWs r3 with
            | ',' :: r4 => parseFieldsF f r4 (acc ++ [(.kstr ks, v2)])
            | '}' :: r4 => some (.pdict (acc ++ [(.kstr ks, v2)]), r4)
            | _ => none) =
          some (.pdict (acc ++ (.kstr ks, v) :: e2 :: fr2), rest)
        rw [hv]
        show (match skipWs (',' :: ' ' :: (renderDict (e2 :: fr2) ++ '}' :: rest)) with
          | ',' :: r4 => parseFieldsF f r4 (acc ++ [(.kstr ks, v)])
          | '}' :: r4 => some (.pdict (acc ++ [(.kstr ks, v)]), r4)
          | _ => none) =
          some (.pdict (acc ++ (.kstr ks, v) :: e2 :: fr2), rest)
        rw [skipWs_not_ws ',' (by decide)]
        show parseFieldsF f (' ' :: (renderDict (e2 :: fr2) ++ '}' :: rest))
            (acc ++ [(.kstr ks, v)]) =
          some (.pdict (acc ++ (.kstr ks, v) :: e2 :: fr2), rest)
        obtain ⟨t2, ht2⟩ := renderDict_decomp e2 fr2
        have hs2 : skipWs (' ' :: (renderDict (e2 :: fr2) ++ '}' :: rest)) =
            renderDict (e2 :: fr2) ++ '}' :: rest := by
          rw [skipWs_cons_space, ht2, List.cons_append, skipWs_not_ws '"' (by decide)]
        have hrec := parse_render_fields (e2 :: fr2) (by simp) hcfr
          (acc ++ [(.kstr ks, v)])
          (' ' :: (renderDict (e2 :: fr2) ++ '}' :: rest)) rest f hs2 hneedfr
        rw [hrec]
        simp
end

/-- The decoder `json.loads` inverts `json.dumps` on canonical values. -/
theorem pyLoads_pyDumps (v : PValue) (hv : canonical v = true) :
    pyLoads (pyDumps v) = some v := by
  have hskip : skipWs (pyDumps v) = pyDumps v ++ [] := by
    rw [List.append_nil]
    obtain ⟨c, t, hct, hws, -, -, -⟩ := pyDumps_head v
    rw [hct, skipWs_not_ws c hws]
  have hfuel : need v ≤ (pyDumps v).length + 1 := by
    have := need_le_len v
    omega
  have hparse := parse_render v hv (pyDumps v) [] ((pyDumps v).length + 1) hskip
    (by intro c hc; simp at hc) hfuel
  rw [pyLoads, hparse]
  rfl

theorem find?_append_key :
    ∀ (l : List (Chars × Chars)) (key w : Chars),
      (∀ kv ∈ l, (kv.1 == key) = false) →
      (l ++ [(key, w)]).find? (fun kv => kv.1 == key) = some (key, w) := by
  intro l
  induction l with
  | nil =>
    intro key w _
    simp [List.find?]
  | cons kv rest ih =>
    intro key w h
    have hkv : (kv.1 == key) = false := h kv (List.mem_cons_self _ _)
    rw [List.cons_append, List.find?_cons_of_neg _ (by simp [hkv])]
    exact ih key w (fun kv2 h2 => h kv2 (List.mem_cons_of_mem _ h2))

/-- After a put, the store holds the written bytes at the key. -/
theorem etcdGet_etcdPut (store : List (Chars × Chars)) (key w : Chars) :
    etcdGet (etcdPut store key w) key = some w := by
  unfold etcdGet etcdPut
  rw [find?_append_key]
  · rfl
  · intro kv hkv
    have := (List.mem_filter.mp hkv).2
    simpa using this

/-- C9 amended: for every key and every value already in canonical JSON
form (null, booleans, arbitrary-precision integers, strings, arrays,
string-keyed objects; no floats), `upsert(key, value)` followed by
`retrieve(key)` returns a structurally equal value: the JSON encoding on
write is inverted by the JSON decoding on read. -/
theorem C9_upsert_retrieve_roundtrip (store : List (Chars × Chars)) (key : Chars)
    (v : PValue) (hv : canonical v = true) :
    retrieve (upsert store key v) key = .value v := by
  unfold upsert retrieve
  rw [etcdGet_etcdPut]
  obtain ⟨c, t, hct, -, -, -, -⟩ := pyDumps_head v
  have hne : (pyDumps v).isEmpty = false := by rw [hct]; rfl
  show (if (pyDumps v).isEmpty = true then RetrieveResult.raw (pyDumps v)
        else match pyLoads (pyDumps v) with
             | some v2 => RetrieveResult.value v2
             | none => RetrieveResult.parseFailure) = .value v
  rw [hne, pyLoads_pyDumps v hv]
  rfl

/-- C9 witness: a concrete canonical value survives the round trip. -/
theorem C9_upsert_retrieve_roundtrip_witness :
    retrieve (upsert [] (chars "/k")
        (.pdict [(.kstr (chars "a"), .plist [.pint 5, .pnull])])) (chars "/k") =
      .value (.pdict [(.kstr (chars "a"), .plist [.pint 5, .pnull])]) :=
  C9_upsert_retrieve_roundtrip [] (chars "/k")
    (.pdict [(.kstr (chars "a"), .plist [.pint 5, .pnull])]) (by decide)

/-- C9 counterexample: a `dict` with the integer key `1` is
JSON-serializable (`json.dumps` coerces the key to the string `"1"`),
but the value read back has a string key, so it is not structurally
equal to the stored value. -/
theorem C9_roundtrip_counterexample :
    retrieve (upsert [] (chars "/k") (.pdict [(.kint 1, .pstr (chars "a"))]))
        (chars "/k") =
      .value (.pdict [(.kstr (chars "1"), .pstr (chars "a"))]) ∧
    retrieve (upsert [] (chars "/k") (.pdict [(.kint 1, .pstr (chars "a"))]))
        (chars "/k") ≠
      .value (.pdict [(.kint 1, .pstr (chars "a"))]) := by
  constructor
  · rfl
  · intro h
    have h1 : retrieve (upsert [] (chars "/k")
        (.pdict [(.kint 1, .pstr (chars "a"))])) (chars "/k") =
        .value (.pdict [(.kstr (chars "1"), .pstr (chars "a"))]) := rfl
    rw [h1] at h
    simp only [RetrieveResult.value.injEq, PValue.pdict.injEq, List.cons.injEq,
      Prod.mk.injEq] at h
    exact PKey.noConfusion h.1.1

